import Mathlib

/-!
Verification of the command-line splitting / quoting / macro-expansion engine
of `src/libs/utils/qtcprocess.cpp` (Qt Creator).  Strings are modelled as
lists of Unicode code points (`Str`); the goto-based scanners of the source
are translated into explicit state machines consuming one character per step.
-/

namespace Qtc

/-- Characters of a Qt QString, modelled as a list of Unicode code points. -/
abbrev Str := List Char

/-- Source ProcessArgs::SplitError. -/
inductive SplitError where
  | SplitOk
  | BadQuoting
  | FoundMeta
deriving DecidableEq

/-- Named character constants (kept out of literals for hygiene). -/
def squote : Char := Char.ofNat 39

/-- Backtick character. -/
def btick : Char := Char.ofNat 96

/-- Left brace character. -/
def lbrace : Char := Char.ofNat 123

/-- Right brace character. -/
def rbrace : Char := Char.ofNat 125

/-- NUL character: Qt guarantees a terminator at position `length`, and the
Windows scanners in the source rely on reading it. -/
def nulChar : Char := Char.ofNat 0

/-- Read the character at an index; out-of-range reads yield the NUL
terminator, as for `QString::unicode()[i]` with `i = length`. -/
def charAt (s : Str) (i : Nat) : Char := s.getD i nulChar

/-- Model of QChar::isSpace: ASCII whitespace and space, NEL, NBSP and the
Unicode separator categories Zs, Zl and Zp. -/
def qIsSpace (c : Char) : Bool :=
  let n := c.toNat
  n == 32 || (9 ≤ n && n ≤ 13) || n == 0x85 || n == 0xA0 || n == 0x1680 ||
  (0x2000 ≤ n && n ≤ 0x200A) || n == 0x2028 || n == 0x2029 ||
  n == 0x202F || n == 0x205F || n == 0x3000

/-- Source `isMetaCharWin` (bitset iqm): the cmd.exe metacharacters. -/
def isMetaCharWin (c : Char) : Bool :=
  c == '&' || c == '(' || c == ')' || c == '<' || c == '>' || c == '|'

/-- Source `isMetaUnix` (bitset iqm): backslash, quotes, dollar, backtick,
redirections, separators, globs, comment, brackets and braces. -/
def isMetaUnix (c : Char) : Bool :=
  c == '"' || c == '#' || c == '$' || c == '&' || c == squote || c == '(' ||
  c == ')' || c == '*' || c == ';' || c == '<' || c == '>' || c == '?' ||
  c == '[' || c == '\\' || c == ']' || c == btick || c == lbrace ||
  c == '|' || c == rbrace

/-- Source `isSpecialCharUnix`: the metacharacters plus all control
characters, space, bang and tilde. -/
def isSpecialCharUnix (c : Char) : Bool :=
  c.toNat ≤ 32 || c == '!' || c == '~' || isMetaUnix c

/-- Source `hasSpecialCharsUnix`. -/
def hasSpecialCharsUnix (s : Str) : Bool := s.any isSpecialCharUnix

/-- Source `isSpecialCharWin`: control characters and space, the shell
metacharacters, the double quote, caret and the separators comma,
semicolon and equals. -/
def isSpecialCharWin (c : Char) : Bool :=
  c.toNat ≤ 32 || c == '"' || c == '&' || c == '(' || c == ')' || c == ',' ||
  c == ';' || c == '<' || c == '=' || c == '>' || c == '^' || c == '|'

/-- Source `hasSpecialCharsWin`. -/
def hasSpecialCharsWin (s : Str) : Bool := s.any isSpecialCharWin

/-! ## Newline normalization (QtcProcess::normalizeNewlines) -/

/-- Tail worker for the std::unique model: `last` is the last kept element;
an element is dropped when the predicate holds of (last kept, current). -/
def uniqueAdjGo (p : Char → Char → Bool) (last : Char) : Str → Str
  | [] => []
  | c :: cs => if p last c then uniqueAdjGo p last cs else c :: uniqueAdjGo p c cs

/-- Model of std::unique over the whole string with a binary predicate. -/
def uniqueAdj (p : Char → Char → Bool) : Str → Str
  | [] => []
  | c :: cs => c :: uniqueAdjGo p c cs

/-- Model of QString::replace of the fixed pattern CRLF by LF: leftmost,
non-overlapping replacement. -/
def replaceCRLF : Str → Str
  | [] => []
  | [c] => [c]
  | c1 :: c2 :: cs =>
    if c1 == '\r' && c2 == '\n' then '\n' :: replaceCRLF cs
    else c1 :: replaceCRLF (c2 :: cs)

/-- Source QtcProcess::normalizeNewlines: collapse adjacent CR pairs via
std::unique (QTCREATORBUG-24556), then replace CRLF by LF. -/
def normalizeNewlines (s : Str) : Str :=
  replaceCRLF (uniqueAdj (fun c1 c2 => c1 == '\r' && c2 == '\r') s)

/-- Specification-side description: collapse every run of consecutive
carriage returns to a single carriage return. -/
def collapseCRruns : Str → Str
  | [] => []
  | [c] => [c]
  | c1 :: c2 :: cs =>
    if c1 == '\r' && c2 == '\r' then collapseCRruns (c2 :: cs)
    else c1 :: collapseCRruns (c2 :: cs)

/-! ## Synchronous process result handling -/

/-- SynchronousProcessResponse::Result. -/
inductive SyncResult where
  | Finished
  | FinishedError
  | TerminatedAbnormally
  | StartFailed
  | Hang
deriving DecidableEq

/-- QProcess::ExitStatus. -/
inductive ExitStatus where
  | NormalExit
  | CrashExit
deriving DecidableEq

/-- The (result, exitCode) part of SynchronousProcessResponse mutated by
QtcProcessPrivate::slotFinished. -/
structure ProcResult where
  result : SyncResult
  exitCode : Int
deriving DecidableEq

/-- Source `defaultExitCodeInterpreter`. -/
def defaultExitCodeInterpreter (code : Int) : SyncResult :=
  if code ≠ 0 then SyncResult.FinishedError else SyncResult.Finished

/-- Source QtcProcessPrivate::slotFinished, as a pure function from the
latched result and the exit report to the new result. -/
def slotFinished (interp : Int → SyncResult) (prev : ProcResult)
    (exitCode : Int) (e : ExitStatus) : ProcResult :=
  match e with
  | ExitStatus.NormalExit => { result := interp exitCode, exitCode := exitCode }
  | ExitStatus.CrashExit =>
    { result := if prev.result ≠ SyncResult.Hang then SyncResult.TerminatedAbnormally
                else prev.result,
      exitCode := -1 }

/-- C INT_MAX, used by QtcProcess::setTimeoutS. -/
def INT_MAX : Int := 2147483647

/-- Source QtcProcess::setTimeoutS: the value stored into
m_maxHangTimerCount. -/
def setTimeoutS (timeoutS : Int) : Int :=
  if timeoutS > 0 then max 2 timeoutS else INT_MAX / 1000

/-! ## Windows argument splitting -/

/-- Source `isWhiteSpaceWin`: only space and tab split words on Windows. -/
def isWhiteSpaceWin (c : Char) : Bool := c == ' ' || c == '\t'

/-- A run of `n` backslashes. -/
def bsRun (n : Nat) : Str := List.replicate n '\\'

/-- Source `doSplitArgsWin` (the Microsoft CRT CommandLineToArgv
tokenization), as a character-at-a-time state machine.  `started` tells
whether a word has begun (the source's outer/inner loop distinction);
`pending` records that the previous character closed the double-quoting, so
that an immediately following quote is taken as one literal quote (the
undocumented MSDN quirk); `bs` counts pending backslashes not yet flushed;
`arg` is the current word and `ret` the finished words. -/
def doSplitArgsWinGo : Str → Bool → Bool → Bool → Nat → Str → List Str →
    SplitError × List Str
  | [], started, inquote, _, bs, arg, ret =>
    if started then
      if inquote then (SplitError.BadQuoting, [])
      else (SplitError.SplitOk, ret ++ [arg ++ bsRun bs])
    else (SplitError.SplitOk, ret)
  | c :: r, started, inquote, pending, bs, arg, ret =>
    if c == '\\' then
      doSplitArgsWinGo r true inquote false (bs + 1) arg ret
    else if c == '"' then
      if pending then
        doSplitArgsWinGo r true false false 0 (arg ++ ['"']) ret
      else if bs % 2 == 0 then
        if inquote then
          doSplitArgsWinGo r true false true 0 (arg ++ bsRun (bs / 2)) ret
        else doSplitArgsWinGo r true true false 0 (arg ++ bsRun (bs / 2)) ret
      else doSplitArgsWinGo r true inquote false 0 (arg ++ bsRun (bs / 2) ++ ['"']) ret
    else if isWhiteSpaceWin c then
      if inquote then
        doSplitArgsWinGo r true inquote false 0 (arg ++ bsRun bs ++ [c]) ret
      else if started then
        doSplitArgsWinGo r false false false 0 [] (ret ++ [arg ++ bsRun bs])
      else doSplitArgsWinGo r false false false 0 [] ret
    else doSplitArgsWinGo r true inquote false 0 (arg ++ bsRun bs ++ [c]) ret

/-- Source `doSplitArgsWin` entry point. -/
def doSplitArgsWin (args : Str) : SplitError × List Str :=
  doSplitArgsWinGo args false false false 0 [] []

/-- ASCII fragment of QString::toUpper (environment variable names on
Windows are upper-cased before lookup; only ASCII names are relied upon). -/
def qToUpperChar (c : Char) : Char :=
  if 97 ≤ c.toNat && c.toNat ≤ 122 then Char.ofNat (c.toNat - 32) else c

/-- Upper-case a name, character-wise. -/
def qToUpper (s : Str) : Str := s.map qToUpperChar

/-- Model of QDir::toNativeSeparators on Windows. -/
def toNativeSeparators (s : Str) : Str :=
  s.map (fun c => if c == '/' then '\\' else c)

/-- An environment snapshot: case-sensitive key lookup.  `none` means the
variable does not exist. -/
abbrev Env := Str → Option Str

/-- Environment::expandedValueForKey — the snapshot's (already expanded)
value for a key, empty when absent. -/
def expandedValueForKey (env : Env) (name : Str) : Str := (env name).getD []

/-- QString::indexOf for a single character from an offset. -/
def indexOfFrom (s : Str) (c : Char) (off : Nat) : Option Nat :=
  match (s.drop off).findIdx? (· == c) with
  | none => none
  | some i => some (off + i)

/-- Source `envExpandWin` scan loop: `prev` is the index of the previous
percent sign (the source's `prev`), `off` the search offset.  A non-empty
expansion replaces the whole `%NAME%` span and restarts the scan (`goto
next`); the fuel bounds the number of steps, since the source can loop
forever on self-expanding values. -/
def envExpandGo (env : Env) (pwd : Option Str) :
    Nat → Str → Nat → Option Nat → Str
  | 0, s, _, _ => s
  | Nat.succ fuel, s, off, prev =>
    match indexOfFrom s '%' off with
    | none => s
    | some that =>
      match prev with
      | none => envExpandGo env pwd fuel s (that + 1) (some that)
      | some p =>
        let name := qToUpper ((s.drop (p + 1)).take (that - p - 1))
        let val :=
          match pwd with
          | some w =>
            if name = ['C', 'D'] ∧ w ≠ [] then toNativeSeparators w
            else expandedValueForKey env name
          | none => expandedValueForKey env name
        if val = [] then envExpandGo env pwd fuel s (that + 1) (some that)
        else
          let s2 := s.take p ++ val ++ s.drop (that + 1)
          envExpandGo env pwd fuel s2 (p + val.length) none

/-- Source `envExpandWin`. -/
def envExpandWin (env : Env) (pwd : Option Str) (fuel : Nat) (s : Str) : Str :=
  envExpandGo env pwd fuel s 0 none

/-- Source `prepareArgsWin` metacharacter scan (the loop after expansion):
`inQuoteSpan` tells whether we are inside a balanced double-quote span that
cmd skips wholesale; a caret is removed together with protecting the next
character; a cmd metacharacter outside quotes aborts.  Returns the scanned
string (carets removed) or `none` for FoundMeta. -/
def prepareScanWinGo : Str → Bool → Option Str
  | [], _ => some []
  | c :: r, q =>
    if q then
      if c == '"' then (prepareScanWinGo r false).map (fun t => c :: t)
      else (prepareScanWinGo r true).map (fun t => c :: t)
    else if c == '^' then
      match r with
      | [] => some []
      | x :: r2 => (prepareScanWinGo r2 false).map (fun t => x :: t)
    else if c == '"' then (prepareScanWinGo r true).map (fun t => c :: t)
    else if isMetaCharWin c then none
    else (prepareScanWinGo r false).map (fun t => c :: t)

/-- Model of the leading at-sign strip of `prepareArgsWin`. -/
def stripAt : Str → Str
  | [] => []
  | c :: r => if c == '@' then r else c :: r

/-- Tail of `prepareArgsWin`: strip a leading at-sign, then run the
metacharacter scan. -/
def prepareArgsWinTail (args : Str) : SplitError × Str :=
  match prepareScanWinGo (stripAt args) false with
  | none => (SplitError.FoundMeta, [])
  | some s => (SplitError.SplitOk, s)

/-- Source `prepareArgsWin`: expand the environment (or abort on a percent
sign when no environment is supplied), then scan for cmd metacharacters. -/
def prepareArgsWin (envFuel : Nat) (args : Str) (env : Option Env)
    (pwd : Option Str) : SplitError × Str :=
  match env with
  | some e => prepareArgsWinTail (envExpandWin e pwd envFuel args)
  | none =>
    if args.any (fun c => c == '%') then (SplitError.FoundMeta, [])
    else prepareArgsWinTail args

/-- Source `splitArgsWin`: with `abortOnMeta` the prepare phase runs first
and its error aborts; otherwise only the optional environment expansion is
applied before the CRT tokenization. -/
def splitArgsWin (envFuel : Nat) (args : Str) (abortOnMeta : Bool)
    (env : Option Env) (pwd : Option Str) : SplitError × List Str :=
  if abortOnMeta then
    match prepareArgsWin envFuel args env pwd with
    | (SplitError.SplitOk, a) => doSplitArgsWin a
    | (e, _) => (e, [])
  else
    let a := match env with
      | some e => envExpandWin e pwd envFuel args
      | none => args
    doSplitArgsWin a

/-! ## Quoting -/

/-- Model of the regular-expression replacement in `quoteArgWin`: each
maximal backslash run followed by a double quote, together with that quote,
is replaced by a quote, the run doubled, then backslash-caret-quote-quote. -/
def winQuoteReplaceGo : Str → Nat → Str
  | [], bs => bsRun bs
  | c :: r, bs =>
    if c == '\\' then winQuoteReplaceGo r (bs + 1)
    else if c == '"' then
      '"' :: (bsRun (2 * bs) ++ '\\' :: '^' :: '"' :: '"' :: winQuoteReplaceGo r 0)
    else bsRun bs ++ c :: winQuoteReplaceGo r 0

/-- Length of the trailing backslash run. -/
def trailingBsCount (s : Str) : Nat := (s.reverse.takeWhile (· == '\\')).length

/-- Source `quoteArgWin`: empty arguments become a quote pair; arguments
with special characters get the embedded-quote replacement, a closing quote
inserted before any trailing backslash run, and an opening quote
prepended. -/
def quoteArgWin (arg : Str) : Str :=
  if arg = [] then ['"', '"']
  else if hasSpecialCharsWin arg then
    let r := winQuoteReplaceGo arg 0
    let i := r.length - trailingBsCount r
    '"' :: (r.take i ++ '"' :: r.drop i)
  else arg

/-- The single-quote escaping of `quoteArgUnix`: each quote becomes
quote-backslash-quote-quote. -/
def escSQuote (s : Str) : Str :=
  s.flatMap (fun c => if c == squote then [squote, '\\', squote, squote] else [c])

/-- Source `ProcessArgs::quoteArgUnix`. -/
def quoteArgUnix (arg : Str) : Str :=
  if arg = [] then [squote, squote]
  else if hasSpecialCharsUnix arg then squote :: (escSQuote arg ++ [squote])
  else arg

/-! ## Unix argument splitting (splitArgsUnix)

The goto-based scanner of the source is rendered as a state machine with one
state per scan position kind; `cret` is the current word accumulator,
`hadWord` the source's flag, `ret` the finished words. -/

/-- ASCII fragment of QChar::isLetterOrNumber (variable names relied upon by
the claims are ASCII). -/
def qIsLetterOrNumber (c : Char) : Bool := c.isAlpha || c.isDigit

/-- Characters accepted inside a variable name by the source's name loop. -/
def isNameChar (c : Char) : Bool := qIsLetterOrNumber c || c == '_'

/-- Scanner modes of splitArgsUnix (labels of the source's goto graph). -/
inductive UMode where
  | top                     -- outer loop, between words
  | tilde                   -- a tilde was read at word start
  | inWord                  -- at the getc/nextc point of the word loop
  | inSQ                    -- inside single quotes
  | bslashW                 -- after an unquoted backslash
  | inDQ                    -- inside double quotes
  | dqBslash                -- after a backslash inside double quotes
  | dqVarStart              -- after a dollar inside double quotes
  | dqVarBrace              -- after dollar-brace inside double quotes
  | dqVarName (braced : Bool) (acc : Str) -- name scan inside double quotes
  | varStart                -- after a dollar in a word
  | varBrace                -- after dollar-brace in a word
  | varName (braced : Bool) (acc : Str)   -- name scan in a word

/-- Result of resolving a variable name (source lines around constFind):
an unset variable aborts with FoundMeta when abortOnMeta is on, otherwise
contributes nothing. -/
inductive VarRes where
  | meta
  | val (v : Str)

/-- Source variable resolution: PWD with a non-empty supplied directory is
special-cased, otherwise the environment is consulted. -/
def unixVarLookup (abortOnMeta : Bool) (env : Option Env) (pwd : Option Str)
    (var : Str) : VarRes :=
  let envCase : VarRes :=
    match env with
    | some e =>
      match e var with
      | none => if abortOnMeta then VarRes.meta else VarRes.val []
      | some v => VarRes.val v
    | none => if abortOnMeta then VarRes.meta else VarRes.val []
  match pwd with
  | some w => if var = ['P', 'W', 'D'] ∧ w ≠ [] then VarRes.val w else envCase
  | none => envCase

/-- The value characters the source's expansion splice treats as word
separators: tab, newline and space. -/
def isValWs (c : Char) : Bool := c.toNat == 9 || c.toNat == 10 || c.toNat == 32

/-- The splice loop of an unquoted expansion: the value is word-split on
tab/newline/space, emitting finished words into `ret`. -/
def spliceVal : Str → Str → Bool → List Str → Str × Bool × List Str
  | [], cret, hadWord, ret => (cret, hadWord, ret)
  | c :: v, cret, hadWord, ret =>
    if isValWs c then
      if hadWord then spliceVal v [] false (ret ++ [cret])
      else spliceVal v cret hadWord ret
    else spliceVal v (cret ++ [c]) true ret

/-- One-step outcome used by the character dispatch helpers. -/
inductive UStep where
  | err (e : SplitError)
  | cont (m : UMode) (cret : Str) (hadWord : Bool) (ret : List Str)

/-- Dispatch of one character in the body of the word loop (the source's
do-while body), for a character that is not at the space check. -/
def wordChar (abortOnMeta : Bool) (env : Option Env) (c : Char) (cret : Str)
    (hadWord : Bool) (ret : List Str) : UStep :=
  if c == squote then UStep.cont UMode.inSQ cret hadWord ret
  else if c == '"' then UStep.cont UMode.inDQ cret hadWord ret
  else if c == '$' && env.isSome then UStep.cont UMode.varStart cret hadWord ret
  else if c == '\\' then UStep.cont UMode.bslashW cret hadWord ret
  else if abortOnMeta && isMetaUnix c then UStep.err SplitError.FoundMeta
  else UStep.cont UMode.inWord (cret ++ [c]) true ret

/-- Dispatch of one character inside double quotes (the source's nextq
label). -/
def dqDispatch (abortOnMeta : Bool) (env : Option Env) (c : Char) (cret : Str)
    (hadWord : Bool) (ret : List Str) : UStep :=
  if c == '"' then UStep.cont UMode.inWord cret true ret
  else if c == '\\' then UStep.cont UMode.dqBslash cret hadWord ret
  else if c == '$' && env.isSome then UStep.cont UMode.dqVarStart cret hadWord ret
  else if abortOnMeta && (c == '$' || c == btick) then UStep.err SplitError.FoundMeta
  else UStep.cont UMode.inDQ (cret ++ [c]) hadWord ret

/-- Dispatch at the space check of the word loop (the source's nextc
label): whitespace ends the word, anything else re-enters the body. -/
def varDispatch (abortOnMeta : Bool) (env : Option Env) (c : Char) (cret : Str)
    (hadWord : Bool) (ret : List Str) : UStep :=
  if qIsSpace c then
    UStep.cont UMode.top [] false (if hadWord then ret ++ [cret] else ret)
  else wordChar abortOnMeta env c cret hadWord ret

/-- Source `splitArgsUnix` main scan. -/
def splitUnixGo (abortOnMeta : Bool) (env : Option Env) (pwd : Option Str)
    (home : Str) : Str → UMode → Str → Bool → List Str → SplitError × List Str
  | [], UMode.top, _, _, ret => (SplitError.SplitOk, ret)
  | [], UMode.tilde, _, _, ret => (SplitError.SplitOk, ret ++ [home])
  | [], UMode.inWord, cret, hadWord, ret =>
    (SplitError.SplitOk, if hadWord then ret ++ [cret] else ret)
  | [], UMode.varName braced acc, cret, hadWord, ret =>
    if braced then (SplitError.BadQuoting, [])
    else
      match unixVarLookup abortOnMeta env pwd acc with
      | VarRes.meta => (SplitError.FoundMeta, [])
      | VarRes.val v =>
        let s := spliceVal v cret hadWord ret
        (SplitError.SplitOk, if s.2.1 then s.2.2 ++ [s.1] else s.2.2)
  | [], _, _, _, _ => (SplitError.BadQuoting, [])
  | c :: r, UMode.top, _, _, ret =>
    if qIsSpace c then splitUnixGo abortOnMeta env pwd home r UMode.top [] false ret
    else if c == '~' then splitUnixGo abortOnMeta env pwd home r UMode.tilde [] false ret
    else
      match wordChar abortOnMeta env c [] false ret with
      | UStep.err e => (e, [])
      | UStep.cont m cr hw rt => splitUnixGo abortOnMeta env pwd home r m cr hw rt
  | c :: r, UMode.tilde, _, _, ret =>
    if qIsSpace c then splitUnixGo abortOnMeta env pwd home r UMode.top [] false (ret ++ [home])
    else if c == '/' then splitUnixGo abortOnMeta env pwd home r UMode.inWord (home ++ ['/']) true ret
    else if abortOnMeta then (SplitError.FoundMeta, [])
    else
      match wordChar abortOnMeta env c ['~'] true ret with
      | UStep.err e => (e, [])
      | UStep.cont m cr hw rt => splitUnixGo abortOnMeta env pwd home r m cr hw rt
  | c :: r, UMode.inWord, cret, hadWord, ret =>
    if qIsSpace c then
      splitUnixGo abortOnMeta env pwd home r UMode.top [] false
        (if hadWord then ret ++ [cret] else ret)
    else
      match wordChar abortOnMeta env c cret hadWord ret with
      | UStep.err e => (e, [])
      | UStep.cont m cr hw rt => splitUnixGo abortOnMeta env pwd home r m cr hw rt
  | c :: r, UMode.inSQ, cret, hadWord, ret =>
    if c == squote then splitUnixGo abortOnMeta env pwd home r UMode.inWord cret true ret
    else splitUnixGo abortOnMeta env pwd home r UMode.inSQ (cret ++ [c]) hadWord ret
  | c :: r, UMode.bslashW, cret, _, ret =>
    splitUnixGo abortOnMeta env pwd home r UMode.inWord (cret ++ [c]) true ret
  | c :: r, UMode.inDQ, cret, hadWord, ret =>
    match dqDispatch abortOnMeta env c cret hadWord ret with
    | UStep.err e => (e, [])
    | UStep.cont m cr hw rt => splitUnixGo abortOnMeta env pwd home r m cr hw rt
  | c :: r, UMode.dqBslash, cret, hadWord, ret =>
    splitUnixGo abortOnMeta env pwd home r UMode.inDQ
      (cret ++
        (if c ≠ '"' ∧ c ≠ '\\' ∧ ¬(abortOnMeta ∧ (c = '$' ∨ c = btick))
         then ['\\', c] else [c]))
      hadWord ret
  | c :: r, UMode.dqVarStart, cret, hadWord, ret =>
    if c == lbrace then splitUnixGo abortOnMeta env pwd home r UMode.dqVarBrace cret hadWord ret
    else if isNameChar c then
      splitUnixGo abortOnMeta env pwd home r (UMode.dqVarName false [c]) cret hadWord ret
    else
      match unixVarLookup abortOnMeta env pwd [] with
      | VarRes.meta => (SplitError.FoundMeta, [])
      | VarRes.val v =>
        match dqDispatch abortOnMeta env c (cret ++ v) hadWord ret with
        | UStep.err e => (e, [])
        | UStep.cont m cr hw rt => splitUnixGo abortOnMeta env pwd home r m cr hw rt
  | c :: r, UMode.dqVarBrace, cret, hadWord, ret =>
    if isNameChar c then
      splitUnixGo abortOnMeta env pwd home r (UMode.dqVarName true [c]) cret hadWord ret
    else
      match unixVarLookup abortOnMeta env pwd [] with
      | VarRes.meta => (SplitError.FoundMeta, [])
      | VarRes.val v =>
        if c == rbrace then splitUnixGo abortOnMeta env pwd home r UMode.inDQ (cret ++ v) hadWord ret
        else if abortOnMeta then (SplitError.FoundMeta, [])
        else (SplitError.BadQuoting, [])
  | c :: r, UMode.dqVarName braced acc, cret, hadWord, ret =>
    if isNameChar c then
      splitUnixGo abortOnMeta env pwd home r (UMode.dqVarName braced (acc ++ [c])) cret hadWord ret
    else
      match unixVarLookup abortOnMeta env pwd acc with
      | VarRes.meta => (SplitError.FoundMeta, [])
      | VarRes.val v =>
        if braced then
          if c == rbrace then splitUnixGo abortOnMeta env pwd home r UMode.inDQ (cret ++ v) hadWord ret
          else if abortOnMeta then (SplitError.FoundMeta, [])
          else (SplitError.BadQuoting, [])
        else
          match dqDispatch abortOnMeta env c (cret ++ v) hadWord ret with
          | UStep.err e => (e, [])
          | UStep.cont m cr hw rt => splitUnixGo abortOnMeta env pwd home r m cr hw rt
  | c :: r, UMode.varStart, cret, hadWord, ret =>
    if c == lbrace then splitUnixGo abortOnMeta env pwd home r UMode.varBrace cret hadWord ret
    else if isNameChar c then
      splitUnixGo abortOnMeta env pwd home r (UMode.varName false [c]) cret hadWord ret
    else
      match unixVarLookup abortOnMeta env pwd [] with
      | VarRes.meta => (SplitError.FoundMeta, [])
      | VarRes.val v =>
        let s := spliceVal v cret hadWord ret
        match varDispatch abortOnMeta env c s.1 s.2.1 s.2.2 with
        | UStep.err e => (e, [])
        | UStep.cont m cr hw rt => splitUnixGo abortOnMeta env pwd home r m cr hw rt
  | c :: r, UMode.varBrace, cret, hadWord, ret =>
    if isNameChar c then
      splitUnixGo abortOnMeta env pwd home r (UMode.varName true [c]) cret hadWord ret
    else
      match unixVarLookup abortOnMeta env pwd [] with
      | VarRes.meta => (SplitError.FoundMeta, [])
      | VarRes.val v =>
        let s := spliceVal v cret hadWord ret
        if c == rbrace then splitUnixGo abortOnMeta env pwd home r UMode.inWord s.1 s.2.1 s.2.2
        else if abortOnMeta then (SplitError.FoundMeta, [])
        else (SplitError.BadQuoting, [])
  | c :: r, UMode.varName braced acc, cret, hadWord, ret =>
    if isNameChar c then
      splitUnixGo abortOnMeta env pwd home r (UMode.varName braced (acc ++ [c])) cret hadWord ret
    else
      match unixVarLookup abortOnMeta env pwd acc with
      | VarRes.meta => (SplitError.FoundMeta, [])
      | VarRes.val v =>
        let s := spliceVal v cret hadWord ret
        if braced then
          if c == rbrace then splitUnixGo abortOnMeta env pwd home r UMode.inWord s.1 s.2.1 s.2.2
          else if abortOnMeta then (SplitError.FoundMeta, [])
          else (SplitError.BadQuoting, [])
        else
          match varDispatch abortOnMeta env c s.1 s.2.1 s.2.2 with
          | UStep.err e => (e, [])
          | UStep.cont m cr hw rt => splitUnixGo abortOnMeta env pwd home r m cr hw rt

/-- Source `splitArgsUnix` entry point (`home` stands for the injected
QDir::homePath capability). -/
def splitArgsUnix (home : Str) (args : Str) (abortOnMeta : Bool)
    (env : Option Env) (pwd : Option Str) : SplitError × List Str :=
  splitUnixGo abortOnMeta env pwd home args UMode.top [] false []

/-- Specification-side whitespace field splitting (on tab, newline and
space, dropping empty pieces), with an accumulator. -/
def fieldsOnGo : Str → Str → List Str
  | [], f => if f = [] then [] else [f]
  | c :: v, f =>
    if isValWs c then
      if f = [] then fieldsOnGo v [] else f :: fieldsOnGo v []
    else fieldsOnGo v (f ++ [c])

/-- Specification-side whitespace field splitting. -/
def fieldsOn (v : Str) : List Str := fieldsOnGo v []

/-! ## ChannelBuffer line delivery (C7) -/

/-- Model of QString::lastIndexOf for one character. -/
def lastIndexOfC (s : Str) (c : Char) : Option Nat :=
  match s.reverse.findIdx? (· == c) with
  | none => none
  | some i => some (s.length - 1 - i)

/-- The cut position of ChannelBuffer::linesRead: qMax of the last indices
of LF and CR (minus one standing for none). -/
def lastNewlineIndex (s : Str) : Option Nat :=
  match lastIndexOfC s '\n', lastIndexOfC s '\r' with
  | none, none => none
  | some i, none => some i
  | none, some j => some j
  | some i, some j => some (max i j)

/-- Source ChannelBuffer::linesRead on the decoded text buffer: deliver the
normalized prefix up to and including the last newline character, keep the
rest as the new incomplete-line tail. -/
def linesRead (buffer : Str) : Str × Str :=
  match lastNewlineIndex buffer with
  | none => ([], buffer)
  | some i => (normalizeNewlines (buffer.take (i + 1)), buffer.drop (i + 1))

/-- Feeding a sequence of decoded chunks through ChannelBuffer::append with
incremental delivery: returns the concatenation of all delivered line
batches and the final incomplete-line tail. -/
def processChunks : List Str → Str → Str × Str
  | [], tail => ([], tail)
  | c :: cs, tail =>
    let p := linesRead (tail ++ c)
    let q := processChunks cs p.2
    (p.1 ++ q.1, q.2)

/-- The word-list produced when a spliced expansion ends the input: emit the
pending word if the hadWord flag is set (the tail of the source's varName
end-of-string path). -/
def finishSplice (v : Str) (cret : Str) (hadWord : Bool) (ret : List Str) :
    List Str :=
  let s := spliceVal v cret hadWord ret
  if s.2.1 then s.2.2 ++ [s.1] else s.2.2

/-- An environment defining exactly the variable FOO. -/
def envFOO (val : Str) : Env :=
  fun n => if n = ['F', 'O', 'O'] then some val else none

/-- Free of leading and trailing whitespace, in the QChar::isSpace sense. -/
def noEdgeWs (s : Str) : Bool :=
  s.head?.all (fun c => !qIsSpace c) && s.getLast?.all (fun c => !qIsSpace c)

/-! ## Macro expansion (ProcessArgs::expandMacros, lines 1049-1371)

The in-place loop is embedded as an explicit one-iteration step function on
a configuration record, with the abstract macro expander passed as a pure
finder function. -/

/-- Abstract macro finder: given the current string and the search start
position, returns the next macro position, its length and the replacement
text, or none when no further macro occurs (models
AbstractMacroExpander::findMacro with its in-out varPos and rsts). -/
def Finder : Type := Str → Nat → Option (Nat × Nat × Str)

/-- QString::replace(pos, len, after). -/
def replaceAt (s : Str) (pos len : Nat) (r : Str) : Str :=
  s.take pos ++ r ++ s.drop (pos + len)

/-- QString::insert(pos, what). -/
def insertAt (s : Str) (pos : Nat) (r : Str) : Str :=
  s.take pos ++ r ++ s.drop pos

/-- QString::remove(pos, 1). -/
def removeAt (s : Str) (pos : Nat) : Str :=
  s.take pos ++ s.drop (pos + 1)

/-- The INT_MAX sentinel stored into varPos when no further macro exists. -/
def intMaxN : Nat := 2147483647

/-- Source quoteArgInternalWin (line 952): escape quotes for the CRT,
doubling their preceding backslashes and suspending the outer quoting with
a circumflexed quote; returns the rewritten string and the count of
trailing backslashes (seeded with the second argument). -/
def quoteArgInternalWin : Str → Nat → Str × Nat
  | [], bs => ([], bs)
  | c :: r, bs =>
    if c = '\\' then
      let p := quoteArgInternalWin r (bs + 1)
      ('\\' :: p.1, p.2)
    else if c = '"' then
      let p := quoteArgInternalWin r 0
      (List.replicate bs '\\' ++ '"' :: '\\' :: '^' :: '"' :: '"' :: p.1, p.2)
    else
      let p := quoteArgInternalWin r 0
      (c :: p.1, p.2)

/-- cmd.exe parsing state of the Windows branch (line 1064). -/
inductive ShellSt where
  | ShellBasic
  | ShellQuoted
  | ShellEscaped
deriving DecidableEq

/-- CommandLineToArgv parsing state of the Windows branch (line 1069). -/
inductive CrtSt where
  | CrtBasic
  | CrtNeedWord
  | CrtInWord
  | CrtClosed
  | CrtHadQuote
  | CrtQuoted
  | CrtNeedQuote
deriving DecidableEq

/-- Numeric value of the CrtSt enum, for the crtState < CrtQuoted tests. -/
def crtOrd : CrtSt → Nat
  | .CrtBasic => 0
  | .CrtNeedWord => 1
  | .CrtInWord => 2
  | .CrtClosed => 3
  | .CrtHadQuote => 4
  | .CrtQuoted => 5
  | .CrtNeedQuote => 6

/-- Loop state of the Windows branch of expandMacros. -/
structure WCfg where
  str : Str
  pos : Nat
  varPos : Nat
  varLen : Nat
  rsts : Str
  shellState : ShellSt
  crtState : CrtSt
  bslashes : Nat
  rbslashes : Nat
deriving DecidableEq

/-- One-step outcome of the Windows expansion loop: return from the
function (none = false, some s = true with final string s) or continue. -/
inductive WOut where
  | ret (r : Option Str)
  | cont (c : WCfg)
deriving DecidableEq

/-- The shared tail of a Windows loop iteration (lines 1204-1209): break on
exhausted macros without pending backslashes, drop a circumflex escape,
advance. -/
def wFinish (c : WCfg) : WOut :=
  if c.varPos = intMaxN ∧ c.rbslashes = 0 then .ret (some c.str)
  else
    let sh := if c.shellState = .ShellEscaped then ShellSt.ShellBasic else c.shellState
    .cont { c with shellState := sh, pos := c.pos + 1 }

/-- The substitution tail of the pos == varPos block (lines 1119-1127):
replace the macro, advance, look for the next one. -/
def wContinue (f : Finder) (c : WCfg) (rsts2 : Str) (crt : CrtSt) (rbs : Nat) : WOut :=
  let str2 := replaceAt c.str c.pos c.varLen rsts2
  let pos2 := c.pos + rsts2.length
  match f str2 pos2 with
  | some (vp, vl, r) =>
    .cont { str := str2, pos := pos2, varPos := vp, varLen := vl, rsts := r, shellState := c.shellState, crtState := crt, bslashes := 0, rbslashes := rbs }
  | none =>
    .cont { str := str2, pos := pos2, varPos := intMaxN, varLen := 0, rsts := c.rsts, shellState := c.shellState, crtState := crt, bslashes := 0, rbslashes := rbs }

/-- One iteration of the forever loop in the Windows branch of expandMacros
(lines 1082-1210). -/
def stepW (f : Finder) (c : WCfg) : WOut :=
  if c.pos = c.varPos then
    if c.shellState = .ShellEscaped then .ret none
    else if ¬ (c.shellState = .ShellQuoted ↔ c.crtState = .CrtQuoted) then .ret none
    else
      let rbs0 := c.rbslashes + c.bslashes
      if crtOrd c.crtState < 5 then
        if c.rsts = [] then
          let crt1 := if c.crtState = .CrtBasic then CrtSt.CrtNeedWord else c.crtState
          wContinue f c [] crt1 rbs0
        else if hasSpecialCharsWin c.rsts then
          if c.crtState = .CrtClosed then .ret none
          else
            let p := quoteArgInternalWin c.rsts 0
            let r1 := '"' :: p.1
            let r2 := List.replicate rbs0 '\\' ++ r1
            wContinue f c r2 .CrtNeedQuote p.2
        else
          let p := quoteArgInternalWin c.rsts rbs0
          wContinue f c p.1 .CrtInWord p.2
      else
        let p := quoteArgInternalWin c.rsts rbs0
        wContinue f c p.1 c.crtState p.2
  else
    let t1 : Str × Nat × Nat × Nat × CrtSt :=
      if c.crtState = .CrtNeedQuote then
        let s1 := insertAt c.str c.pos (List.replicate c.rbslashes '\\')
        let s2 := insertAt s1 (c.pos + c.rbslashes) ['"']
        (s2, c.pos + c.rbslashes + 1, c.varPos + c.rbslashes + 1, 0, .CrtHadQuote)
      else (c.str, c.pos, c.varPos, c.rbslashes, c.crtState)
    match t1 with
    | (str1, pos1, vp1, rbs1, crt1) =>
      let cc := charAt str1 pos1
      if c.shellState = .ShellBasic ∧ cc = '^' then
        .cont { str := str1, pos := pos1 + 1, varPos := vp1, varLen := c.varLen, rsts := c.rsts, shellState := .ShellEscaped, crtState := crt1, bslashes := c.bslashes, rbslashes := rbs1 }
      else
        if cc = nulChar ∨ cc = ' ' ∨ cc = '\t' then
          let t2 : Str × Nat × Nat × CrtSt :=
            if crtOrd crt1 < 5 then
              if crt1 = .CrtNeedWord then
                (insertAt str1 pos1 ['"', '"'], pos1 + 2, vp1 + 2, .CrtBasic)
              else (str1, pos1, vp1, .CrtBasic)
            else (str1, pos1, vp1, crt1)
          match t2 with
          | (str2, pos2, vp2, crt2) =>
            if cc = nulChar then .ret (some str2)
            else
              wFinish { str := str2, pos := pos2, varPos := vp2, varLen := c.varLen, rsts := c.rsts, shellState := c.shellState, crtState := crt2, bslashes := 0, rbslashes := 0 }
        else if cc = '\\' then
          let crt2 := if crtOrd crt1 < 5 then CrtSt.CrtInWord else crt1
          wFinish { str := str1, pos := pos1, varPos := vp1, varLen := c.varLen, rsts := c.rsts, shellState := c.shellState, crtState := crt2, bslashes := c.bslashes + 1, rbslashes := rbs1 }
        else if cc = '"' then
          let sh2 :=
            if c.shellState = .ShellEscaped then c.shellState
            else if c.shellState = .ShellQuoted then ShellSt.ShellBasic
            else ShellSt.ShellQuoted
          let t3 : Str × Nat × Nat :=
            if rbs1 ≠ 0 then
              (insertAt str1 (pos1 - 1) (List.replicate rbs1 '\\'), pos1 + rbs1, vp1 + rbs1)
            else (str1, pos1, vp1)
          match t3 with
          | (str2, pos2, vp2) =>
            if c.bslashes % 2 = 0 then
              match crt1 with
              | .CrtQuoted =>
                wFinish { str := str2, pos := pos2, varPos := vp2, varLen := c.varLen, rsts := c.rsts, shellState := sh2, crtState := .CrtClosed, bslashes := 0, rbslashes := 0 }
              | .CrtClosed =>
                wFinish { str := str2, pos := pos2, varPos := vp2, varLen := c.varLen, rsts := c.rsts, shellState := sh2, crtState := .CrtInWord, bslashes := 0, rbslashes := 0 }
              | .CrtHadQuote => .ret none
              | crt2 =>
                wFinish { str := str2, pos := pos2, varPos := vp2, varLen := c.varLen, rsts := c.rsts, shellState := sh2, crtState := .CrtQuoted, bslashes := 0, rbslashes := 0 }
            else
              let crt2 := if crtOrd crt1 < 5 then CrtSt.CrtInWord else crt1
              wFinish { str := str2, pos := pos2, varPos := vp2, varLen := c.varLen, rsts := c.rsts, shellState := sh2, crtState := crt2, bslashes := 0, rbslashes := 0 }
        else
          let crt2 := if crtOrd crt1 < 5 then CrtSt.CrtInWord else crt1
          wFinish { str := str1, pos := pos1, varPos := vp1, varLen := c.varLen, rsts := c.rsts, shellState := c.shellState, crtState := crt2, bslashes := 0, rbslashes := 0 }

/-- Fueled run of the Windows loop; none on fuel exhaustion. -/
def runW (f : Finder) : Nat → WCfg → Option (Option Str)
  | 0, _ => none
  | fuel + 1, c =>
    match stepW f c with
    | .ret r => some r
    | .cont c2 => runW f fuel c2

/-- Initial Windows configuration after the common prologue found the first
macro. -/
def initW (cmd : Str) (vp vl : Nat) (r : Str) : WCfg :=
  { str := cmd, pos := 0, varPos := vp, varLen := vl, rsts := r, shellState := .ShellBasic, crtState := .CrtBasic, bslashes := 0, rbslashes := 0 }

/-- Source expandMacros, Windows branch, with the prologue of lines
1051-1061; the result pairs the returned Bool with the final value of the
string behind the cmd pointer, which is written only on the successful
path (line 1369). -/
def expandMacrosW (fuel : Nat) (cmd : Str) (f : Finder) : Bool × Str :=
  if cmd = [] then (true, cmd)
  else
    match f cmd 0 with
    | none => (true, cmd)
    | some (vp, vl, r) =>
      match runW f fuel (initW cmd vp vl r) with
      | some (some out) => (true, out)
      | _ => (false, cmd)

/-- Shell quoting context of the Unix branch (MxQuoting). -/
inductive MxQuoting where
  | MxBasic
  | MxSingleQuote
  | MxDoubleQuote
  | MxParen
  | MxSubst
  | MxGroup
  | MxMath
deriving DecidableEq

/-- Quoting state of the Unix branch (MxState). -/
structure MxState where
  current : MxQuoting
  dquote : Bool
deriving DecidableEq

/-- QStack::pop on the state stack. The stack is never popped empty from a
reachable configuration; popping an empty stack yields the basic state to
keep the function total. -/
def popS : List MxState → MxState × List MxState
  | [] => ({ current := .MxBasic, dquote := false }, [])
  | s :: rest => (s, rest)

/-- The regular-expression replacement of line 1222: prefix each dollar,
backtick, double quote and backslash with a backslash. -/
def dqEscape (s : Str) : Str :=
  s.flatMap (fun c => if c = '$' ∨ c = btick ∨ c = '"' ∨ c = '\\' then ['\\', c] else [c])

/-- The inner backtick scan of lines 1283-1301: advance to the closing
backtick, removing the backslash of each recognized escape and shifting
varPos when the removal lies before it; returns the rewritten string, the
position of the closing backtick and the adjusted varPos, or none on an
unterminated expression. The measure str.length - pos2 strictly decreases
every iteration, so fuel str.length + 1 at the call site is never
exhausted and the exhaustion branch coincides with the unterminated
case. -/
def btickScan (dquote : Bool) : Nat → Str → Nat → Nat → Option (Str × Nat × Nat)
  | 0, _, _, _ => none
  | fuel + 1, str, pos2, varPos =>
    if str.length ≤ pos2 then none
    else
      let cc := charAt str pos2
      if cc = btick then some (str, pos2, varPos)
      else if cc = '\\' then
        let c2 := charAt str (pos2 + 1)
        if c2 = '$' ∨ c2 = btick ∨ c2 = '\\' ∨ (c2 = '"' ∧ dquote) then
          btickScan dquote fuel (removeAt str pos2) (pos2 + 1)
            (if pos2 + 1 ≤ varPos then varPos - 1 else varPos)
        else btickScan dquote fuel str (pos2 + 2) varPos
      else btickScan dquote fuel str (pos2 + 1) varPos

/-- Loop state of the Unix branch of expandMacros. -/
structure UCfg where
  str : Str
  pos : Nat
  varPos : Nat
  varLen : Nat
  rsts : Str
  state : MxState
  sstack : List MxState
  ostack : List (Str × Nat × Nat)
deriving DecidableEq

/-- One-step outcome of the Unix expansion loop. -/
inductive UOut where
  | ret (r : Option Str)
  | cont (c : UCfg)
deriving DecidableEq

/-- One iteration of the while loop in the Unix branch of expandMacros
(lines 1217-1365), including loop exit on pos reaching the end. -/
def stepU (f : Finder) (c : UCfg) : UOut :=
  if c.str.length ≤ c.pos then .ret (some c.str)
  else if c.pos = c.varPos then
    let rsts2 :=
      if c.state.dquote then dqEscape c.rsts
      else if c.state.current = .MxSingleQuote then escSQuote c.rsts
      else if c.rsts = [] ∨ hasSpecialCharsUnix c.rsts then
        squote :: (escSQuote c.rsts ++ [squote])
      else c.rsts
    let str2 := replaceAt c.str c.pos c.varLen rsts2
    let pos2 := c.pos + rsts2.length
    match f str2 pos2 with
    | none => .ret (some str2)
    | some (vp, vl, r) =>
      .cont { c with str := str2, pos := pos2, varPos := vp, varLen := vl, rsts := r }
  else
    let cc := charAt c.str c.pos
    if c.state.current = .MxSingleQuote then
      if cc = squote then
        .cont { c with state := (popS c.sstack).1, sstack := (popS c.sstack).2, pos := c.pos + 1 }
      else .cont { c with pos := c.pos + 1 }
    else if cc = '\\' then
      if c.varPos < c.pos + 2 then .ret none
      else .cont { c with pos := c.pos + 2 }
    else if cc = '$' then
      let cc2 := charAt c.str (c.pos + 1)
      if cc2 = '(' then
        if charAt c.str (c.pos + 2) = '(' then
          .cont { c with state := { current := .MxMath, dquote := c.state.dquote }, sstack := c.state :: c.sstack, ostack := (c.str, c.pos + 3, c.varPos) :: c.ostack, pos := c.pos + 3 }
        else
          .cont { c with state := { current := .MxParen, dquote := false }, sstack := c.state :: c.sstack, pos := c.pos + 2 }
      else if cc2 = lbrace then
        .cont { c with state := { current := .MxSubst, dquote := c.state.dquote }, sstack := c.state :: c.sstack, pos := c.pos + 2 }
      else .cont { c with pos := c.pos + 2 }
    else if cc = btick then
      let str1 := replaceAt c.str c.pos 1 ['$', '(', ' ']
      match btickScan c.state.dquote (str1.length + 1) str1 (c.pos + 3) (c.varPos + 2) with
      | none => .ret none
      | some (str2, p2, vp2) =>
        .cont { c with str := replaceAt str2 p2 1 [')'], pos := c.pos + 3, varPos := vp2, state := { current := .MxParen, dquote := false }, sstack := c.state :: c.sstack }
    else if c.state.current = .MxDoubleQuote then
      if cc = '"' then
        .cont { c with state := (popS c.sstack).1, sstack := (popS c.sstack).2, pos := c.pos + 1 }
      else .cont { c with pos := c.pos + 1 }
    else if cc = squote then
      if c.state.dquote then .cont { c with pos := c.pos + 1 }
      else
        .cont { c with state := { current := .MxSingleQuote, dquote := c.state.dquote }, sstack := c.state :: c.sstack, pos := c.pos + 1 }
    else if cc = '"' then
      if c.state.dquote then .cont { c with pos := c.pos + 1 }
      else
        .cont { c with state := { current := .MxDoubleQuote, dquote := true }, sstack := c.state :: c.sstack, pos := c.pos + 1 }
    else if c.state.current = .MxSubst then
      if cc = rbrace then
        .cont { c with state := (popS c.sstack).1, sstack := (popS c.sstack).2, pos := c.pos + 1 }
      else .cont { c with pos := c.pos + 1 }
    else if cc = ')' then
      if c.state.current = .MxMath then
        if charAt c.str (c.pos + 1) = ')' then
          .cont { c with state := (popS c.sstack).1, sstack := (popS c.sstack).2, pos := c.pos + 2 }
        else
          match c.ostack with
          | (sstr, spos, svp) :: orest =>
            .cont { str := sstr, pos := spos, varPos := svp, varLen := c.varLen, rsts := c.rsts, state := { current := .MxParen, dquote := false }, sstack := { current := MxQuoting.MxParen, dquote := false } :: c.sstack, ostack := orest }
          | [] => .ret (some c.str)
      else if c.state.current = .MxParen then
        .cont { c with state := (popS c.sstack).1, sstack := (popS c.sstack).2, pos := c.pos + 1 }
      else .ret (some c.str)
    else if cc = rbrace then
      if c.state.current = .MxGroup then
        .cont { c with state := (popS c.sstack).1, sstack := (popS c.sstack).2, pos := c.pos + 1 }
      else .ret (some c.str)
    else if cc = '(' then
      .cont { c with state := { current := .MxParen, dquote := c.state.dquote }, sstack := c.state :: c.sstack, pos := c.pos + 1 }
    else if cc = lbrace then
      .cont { c with state := { current := .MxGroup, dquote := c.state.dquote }, sstack := c.state :: c.sstack, pos := c.pos + 1 }
    else .cont { c with pos := c.pos + 1 }

/-- Fueled run of the Unix loop; none on fuel exhaustion. -/
def runU (f : Finder) : Nat → UCfg → Option (Option Str)
  | 0, _ => none
  | fuel + 1, c =>
    match stepU f c with
    | .ret r => some r
    | .cont c2 => runU f fuel c2

/-- Initial Unix configuration after the common prologue found the first
macro. -/
def initU (cmd : Str) (vp vl : Nat) (r : Str) : UCfg :=
  { str := cmd, pos := 0, varPos := vp, varLen := vl, rsts := r, state := { current := .MxBasic, dquote := false }, sstack := [], ostack := [] }

/-- Source expandMacros, Unix branch, with the prologue of lines 1051-1061;
the result pairs the returned Bool with the final value of the string
behind the cmd pointer, which is written only on the successful path (line
1369). -/
def expandMacrosU (fuel : Nat) (cmd : Str) (f : Finder) : Bool × Str :=
  if cmd = [] then (true, cmd)
  else
    match f cmd 0 with
    | none => (true, cmd)
    | some (vp, vl, r) =>
      match runU f fuel (initU cmd vp vl r) with
      | some (some out) => (true, out)
      | _ => (false, cmd)

/-- Single-step transition relation of the Unix loop. -/
def stepRelU (f : Finder) (a b : UCfg) : Prop := stepU f a = .cont b

/-- Single-step transition relation of the Windows loop. -/
def stepRelW (f : Finder) (a b : WCfg) : Prop := stepW f a = .cont b

/-- A Unix configuration whose next character is a backslash escaping the
position of the pending macro, outside single quotes (line 1250). -/
def BadU (c : UCfg) : Prop :=
  c.pos < c.str.length ∧ c.pos ≠ c.varPos ∧ charAt c.str c.pos = '\\' ∧
  c.state.current ≠ .MxSingleQuote ∧ c.varPos < c.pos + 2

/-- A Windows configuration whose pending macro site is circumflex-escaped
(line 1084). -/
def BadW (c : WCfg) : Prop :=
  c.pos = c.varPos ∧ c.shellState = .ShellEscaped

/-- A concrete macro finder for witnesses: the single character M is a
macro that expands to v. -/
def testFinder : Finder := fun s p =>
  match indexOfFrom s 'M' p with
  | some i => some (i, 1, ['v'])
  | none => none

/-! ## Incremental argument iterator (ProcessArgs::ArgIterator::next, Unix
branch, lines 1617-1764)

The iterator never mutates the command string, so the position m_pos is
embedded as the remaining suffix of the string; the rollback stack ostack
stores the saved suffix at the second parenthesis of a potential math
expression. -/

/-- Loop state of one ArgIterator::next call (Unix branch). -/
structure ItState where
  rest : Str
  state : MxState
  sstack : List MxState
  ostack : List Str
  hadWord : Bool
  simple : Bool
  value : Str
deriving DecidableEq

/-- Outcome of one loop iteration: return true with the produced value and
the remaining suffix, return false, or continue. -/
inductive ItOut where
  | yield (value : Str) (rest : Str)
  | done
  | cont (st : ItState)
deriving DecidableEq

/-- QStack::pop on the saved-suffix stack; never popped empty from a
reachable configuration. -/
def popO : List Str → Str × List Str
  | [] => ([], [])
  | x :: rest => (x, rest)

/-- The inner backtick skip of lines 1662-1673: drop everything up to and
including the closing backtick, skipping one character after each
backslash; none when the string ends first. -/
def btSkip : Str → Option Str
  | [] => none
  | c :: r =>
    if c = btick then some r
    else if c = '\\' then
      match r with
      | [] => none
      | _ :: r2 => btSkip r2
    else btSkip r

/-- The block after the scan loop (lines 1757-1763): non-simple values are
cleared, and true is returned exactly when a word was seen. -/
def iterFin (st : ItState) (rest : Str) : ItOut :=
  if st.hadWord then ItOut.yield (if st.simple then st.value else []) rest
  else ItOut.done

/-- One iteration of the for loop of ArgIterator::next (Unix branch),
including loop exit at the end of the string. -/
def iterStep (st : ItState) : ItOut :=
  match st.rest with
  | [] => iterFin st []
  | cc :: r =>
    if st.state.current = .MxSingleQuote then
      if cc = squote then
        .cont { st with state := (popS st.sstack).1, sstack := (popS st.sstack).2, rest := r }
      else .cont { st with value := st.value ++ [cc], hadWord := true, rest := r }
    else if cc = '\\' then
      match r with
      | [] => iterFin st []
      | c2 :: r2 =>
        let pre : Str :=
          if st.state.dquote ∧ ¬(c2 = '"' ∨ c2 = '\\' ∨ c2 = '$' ∨ c2 = btick) then ['\\']
          else []
        .cont { st with value := st.value ++ pre ++ [c2], hadWord := true, rest := r2 }
    else if cc = '$' then
      match r with
      | [] => iterFin st []
      | c2 :: r2 =>
        if c2 = '(' then
          match r2 with
          | [] => iterFin { st with sstack := st.state :: st.sstack } []
          | c3 :: r3 =>
            if c3 = '(' then
              .cont { st with state := { current := .MxMath, dquote := st.state.dquote }, sstack := st.state :: st.sstack, ostack := (c3 :: r3) :: st.ostack, simple := false, hadWord := true, rest := r3 }
            else
              .cont { st with state := { current := .MxParen, dquote := false }, sstack := st.state :: st.sstack, simple := false, hadWord := true, rest := r3 }
        else if c2 = lbrace then
          .cont { st with state := { current := .MxSubst, dquote := st.state.dquote }, sstack := st.state :: st.sstack, simple := false, hadWord := true, rest := r2 }
        else .cont { st with simple := false, hadWord := true, rest := r2 }
    else if cc = btick then
      match btSkip r with
      | none => ItOut.yield st.value []
      | some r2 => .cont { st with simple := false, hadWord := true, rest := r2 }
    else if st.state.current = .MxDoubleQuote then
      if cc = '"' then
        .cont { st with state := (popS st.sstack).1, sstack := (popS st.sstack).2, rest := r }
      else .cont { st with value := st.value ++ [cc], hadWord := true, rest := r }
    else if cc = squote then
      if st.state.dquote then
        .cont { st with value := st.value ++ [cc], hadWord := true, rest := r }
      else
        .cont { st with state := { current := .MxSingleQuote, dquote := st.state.dquote }, sstack := st.state :: st.sstack, hadWord := true, rest := r }
    else if cc = '"' then
      if st.state.dquote then
        .cont { st with value := st.value ++ [cc], hadWord := true, rest := r }
      else
        .cont { st with state := { current := .MxDoubleQuote, dquote := true }, sstack := st.state :: st.sstack, hadWord := true, rest := r }
    else if st.state.current = .MxSubst then
      if cc = rbrace then
        .cont { st with state := (popS st.sstack).1, sstack := (popS st.sstack).2, rest := r }
      else .cont { st with rest := r }
    else if cc = ')' then
      if st.state.current = .MxMath then
        match r with
        | [] => iterFin st []
        | c2 :: r2 =>
          if c2 = ')' then
            .cont { st with state := (popS st.sstack).1, sstack := (popS st.sstack).2, ostack := (popO st.ostack).2, rest := r2 }
          else
            .cont { st with state := { current := .MxParen, dquote := false }, sstack := { current := MxQuoting.MxParen, dquote := false } :: st.sstack, ostack := (popO st.ostack).2, rest := (popO st.ostack).1.tail }
      else if st.state.current = .MxParen then
        .cont { st with state := (popS st.sstack).1, sstack := (popS st.sstack).2, rest := r }
      else iterFin st (cc :: r)
    else if cc = '(' then
      .cont { st with state := { current := .MxParen, dquote := st.state.dquote }, sstack := st.state :: st.sstack, simple := false, hadWord := true, rest := r }
    else if cc = '<' ∨ cc = '>' ∨ cc = '&' ∨ cc = '|' ∨ cc = ';' then
      if st.sstack = [] then iterFin st (cc :: r)
      else .cont { st with value := st.value ++ [cc], hadWord := true, rest := r }
    else if cc = ' ' ∨ cc = '\t' then
      if st.hadWord = false then .cont { st with rest := r }
      else if st.sstack = [] then iterFin st (cc :: r)
      else .cont { st with value := st.value ++ [cc], hadWord := true, rest := r }
    else .cont { st with value := st.value ++ [cc], hadWord := true, rest := r }

/-- Fueled run of the iterator loop; none on fuel exhaustion. -/
def iterLoop : Nat → ItState → Option (Option (Str × Str))
  | 0, _ => none
  | fuel + 1, st =>
    match iterStep st with
    | .yield v r => some (some (v, r))
    | .done => some none
    | .cont st2 => iterLoop fuel st2

/-- Fresh per-call state of ArgIterator::next (lines 1515-1516 and
1618-1621). -/
def initIt (rest : Str) : ItState :=
  { rest := rest, state := { current := .MxBasic, dquote := false }, sstack := [],
    ostack := [], hadWord := false, simple := true, value := [] }

/-- One ArgIterator::next call from the given remaining suffix. -/
def iterNext (fuel : Nat) (rest : Str) : Option (Option (Str × Str)) :=
  iterLoop fuel (initIt rest)

/-- Walking next() until it returns false, collecting the values. -/
def iterWalk : Nat → Str → Option (List Str)
  | 0, _ => none
  | fuel + 1, rest =>
    match iterNext (rest.length + 2) rest with
    | none => none
    | some none => some []
    | some (some (v, r)) =>
      match iterWalk fuel r with
      | none => none
      | some vs => some (v :: vs)

/-- The restricted alphabet of the amended iterator/split agreement: no
substitution, quoting, grouping, tilde, redirection or pipeline characters,
and no whitespace other than space and tab. -/
def plainC5 (c : Char) : Bool :=
  !(c == '$' || c == btick || c == squote || c == '"' || c == '\\' || c == '(' ||
    c == ')' || c == lbrace || c == rbrace || c == '<' || c == '>' || c == '&' ||
    c == '|' || c == ';' || c == '~') &&
  (!(qIsSpace c) || c == ' ' || c == '\t')

/-- Space/tab field splitting with an explicit had-word flag, the common
normal form of the split and iterator runs on the restricted alphabet. -/
def c5FieldsGo : Str → Str → Bool → List Str
  | [], f, hw => if hw then [f] else []
  | c :: v, f, hw =>
    if c == ' ' || c == '\t' then
      if hw then f :: c5FieldsGo v [] false else c5FieldsGo v [] false
    else c5FieldsGo v (f ++ [c]) true

/-- Space/tab field splitting of a whole string. -/
def c5Fields (s : Str) : List Str := c5FieldsGo s [] false

/-! # Theorems -/

/-- Helper: the source's expansion splice computes whitespace field
splitting of the value. -/
theorem finishSplice_eq_fields : ∀ v : Str,
    (∀ ret, finishSplice v [] false ret = ret ++ fieldsOnGo v []) ∧
    (∀ f ret, f ≠ [] → finishSplice v f true ret = ret ++ fieldsOnGo v f) := by
  intro v
  induction v with
  | nil =>
    constructor
    · intro ret; simp [finishSplice, spliceVal, fieldsOnGo]
    · intro f ret hf; simp [finishSplice, spliceVal, fieldsOnGo, hf]
  | cons c v ih =>
    constructor
    · intro ret
      by_cases hc : isValWs c = true
      · have h1 : finishSplice (c :: v) [] false ret = finishSplice v [] false ret := by
          simp [finishSplice, spliceVal, hc]
        have h2 : fieldsOnGo (c :: v) [] = fieldsOnGo v [] := by
          simp [fieldsOnGo, hc]
        rw [h1, h2, (ih).1]
      · have hc' : isValWs c = false := by simpa using hc
        have h1 : finishSplice (c :: v) [] false ret = finishSplice v [c] true ret := by
          simp [finishSplice, spliceVal, hc']
        have h2 : fieldsOnGo (c :: v) [] = fieldsOnGo v [c] := by
          simp [fieldsOnGo, hc']
        rw [h1, h2, (ih).2 [c] ret (by simp)]
    · intro f ret hf
      by_cases hc : isValWs c = true
      · have h1 : finishSplice (c :: v) f true ret = finishSplice v [] false (ret ++ [f]) := by
          simp [finishSplice, spliceVal, hc]
        have h2 : fieldsOnGo (c :: v) f = f :: fieldsOnGo v [] := by
          simp [fieldsOnGo, hc, hf]
        rw [h1, h2, (ih).1]
        simp
      · have hc' : isValWs c = false := by simpa using hc
        have h1 : finishSplice (c :: v) f true ret = finishSplice v (f ++ [c]) true ret := by
          simp [finishSplice, spliceVal, hc']
        have h2 : fieldsOnGo (c :: v) f = fieldsOnGo v (f ++ [c]) := by
          simp [fieldsOnGo, hc']
        rw [h1, h2, (ih).2 (f ++ [c]) ret (by simp)]

/-- C4: unquoted environment expansion is word-split on whitespace while a
double-quoted expansion stays one word: with FOO bound to a value containing
a space, splitArgs of "echo dollar-FOO" yields "echo" followed by the
whitespace fields of the value, and splitArgs of the quoted form yields the
value as a single word, both with SplitOk. -/
theorem c4_unix_env_expansion (home val : Str) (hsp : ' ' ∈ val) :
    splitArgsUnix home ("echo $FOO").toList false (some (envFOO val)) none =
      (SplitError.SplitOk, ("echo").toList :: fieldsOn val) ∧
    splitArgsUnix home ("echo \"$FOO\"").toList false (some (envFOO val)) none =
      (SplitError.SplitOk, [("echo").toList, val]) := by
  constructor
  · have h1 : splitArgsUnix home ("echo $FOO").toList false (some (envFOO val)) none =
        (SplitError.SplitOk, finishSplice val [] false [("echo").toList]) := rfl
    rw [h1, (finishSplice_eq_fields val).1]
    rfl
  · rfl

/-! ### C1: quote/split round trip -/

/-- Helper: unequal characters compare false under beq. -/
theorem beq_false_of_ne {c d : Char} (h : c ≠ d) : (c == d) = false := by
  simp [h]

/-- Helper: a non-special character differs from every special one. -/
theorem ne_of_nspecial {c : Char} (h : isSpecialCharUnix c = false) (d : Char)
    (hd : isSpecialCharUnix d = true) : c ≠ d := by
  intro he; subst he; rw [h] at hd; exact Bool.noConfusion hd

/-- Helper: in-word dispatch of a plain (non-special) character appends it. -/
theorem plain_wordChar (c : Char) (cret : Str) (hw : Bool) (ret : List Str)
    (h : isSpecialCharUnix c = false) :
    wordChar false none c cret hw ret = UStep.cont UMode.inWord (cret ++ [c]) true ret := by
  have h1 : (c == squote) = false := beq_false_of_ne (ne_of_nspecial h squote (by decide))
  have h2 : (c == '"') = false := beq_false_of_ne (ne_of_nspecial h '"' (by decide))
  have h4 : (c == '\\') = false := beq_false_of_ne (ne_of_nspecial h '\\' (by decide))
  simp [wordChar, h1, h2, h4]

/-- Helper: scanning a word of plain characters copies it and emits it at
the end of input. -/
theorem splitUnix_plain_word (home : Str) : ∀ (w cret : Str) (ret : List Str),
    (∀ c ∈ w, isSpecialCharUnix c = false ∧ qIsSpace c = false) →
    splitUnixGo false none none home w UMode.inWord cret true ret =
      (SplitError.SplitOk, ret ++ [cret ++ w]) := by
  intro w
  induction w with
  | nil => intro cret ret _; simp [splitUnixGo]
  | cons c w ih =>
    intro cret ret h
    obtain ⟨hns, hnw⟩ := h c (by simp)
    have hrest : ∀ x ∈ w, isSpecialCharUnix x = false ∧ qIsSpace x = false :=
      fun x hx => h x (List.mem_cons_of_mem _ hx)
    simp only [splitUnixGo, hnw, Bool.false_eq_true, if_false,
      plain_wordChar c cret true ret hns]
    rw [ih (cret ++ [c]) ret hrest]
    simp

/-- Helper: scanning the single-quote escaped body of an argument inside
single quotes reproduces the argument verbatim. -/
theorem splitUnix_squote_scan (home : Str) : ∀ (s r cret : Str) (hw : Bool) (ret : List Str),
    splitUnixGo false none none home (escSQuote s ++ squote :: r) UMode.inSQ cret hw ret =
      splitUnixGo false none none home r UMode.inWord (cret ++ s) true ret := by
  intro s
  induction s with
  | nil => intro r cret hw ret; simp [escSQuote, splitUnixGo]
  | cons c s ih =>
    intro r cret hw ret
    by_cases hc : c = squote
    · subst hc
      have he : escSQuote (squote :: s) = squote :: '\\' :: squote :: squote :: escSQuote s := by
        simp [escSQuote]
      rw [he]
      show splitUnixGo false none none home (escSQuote s ++ squote :: r) UMode.inSQ
        (cret ++ [squote]) true ret = _
      rw [ih]
      simp
    · have he : escSQuote (c :: s) = c :: escSQuote s := by
        simp [escSQuote, hc]
      have hb : (c == squote) = false := beq_false_of_ne hc
      rw [he]
      simp only [List.cons_append, splitUnixGo, hb, Bool.false_eq_true, if_false,
        List.append_eq]
      rw [ih r (cret ++ [c]) hw ret]
      simp

/-- Helper: the Unix side of the round trip. -/
theorem c1_roundtrip_unix (home s : Str)
    (hws : ∀ c ∈ s, qIsSpace c = true → isSpecialCharUnix c = true) :
    splitArgsUnix home (quoteArgUnix s) false none none = (SplitError.SplitOk, [s]) := by
  by_cases hs : s = []
  · subst hs; rfl
  · by_cases hsp : hasSpecialCharsUnix s = true
    · have hq : quoteArgUnix s = squote :: (escSQuote s ++ [squote]) := by
        simp [quoteArgUnix, hs, hsp]
      rw [hq]
      show splitUnixGo false none none home (escSQuote s ++ squote :: [])
        UMode.inSQ [] false [] = _
      rw [splitUnix_squote_scan home s [] [] false []]
      simp [splitUnixGo]
    · have hsp' : hasSpecialCharsUnix s = false := by simpa using hsp
      have hall : ∀ c ∈ s, isSpecialCharUnix c = false := by
        simpa [hasSpecialCharsUnix, List.any_eq_true] using hsp'
      have hallws : ∀ c ∈ s, qIsSpace c = false := by
        intro c hc
        cases hq2 : qIsSpace c with
        | false => rfl
        | true =>
          have := hws c hc hq2
          rw [hall c hc] at this
          exact Bool.noConfusion this
      have hq : quoteArgUnix s = s := by simp [quoteArgUnix, hs, hsp']
      rw [hq]
      obtain ⟨c, w, rfl⟩ : ∃ c w, s = c :: w := by
        cases s with
        | nil => exact absurd rfl hs
        | cons c w => exact ⟨c, w, rfl⟩
      have hcs := hall c (by simp)
      have hcw := hallws c (by simp)
      have hct : (c == '~') = false := beq_false_of_ne (ne_of_nspecial hcs '~' (by decide))
      show splitUnixGo false none none home (c :: w) UMode.top [] false [] = _
      simp only [splitUnixGo, hcw, Bool.false_eq_true, if_false, hct,
        plain_wordChar c [] false [] hcs, List.nil_append]
      rw [splitUnix_plain_word home w [c] []
        (fun x hx => ⟨hall x (by simp [hx]), hallws x (by simp [hx])⟩)]
      simp

/-- Helper: backslash runs grow on the right. -/
theorem bsRun_succ (n : Nat) : bsRun (n + 1) = bsRun n ++ ['\\'] := by
  simp [bsRun, List.replicate_succ']

/-- Helper: scanning an unquoted Windows word with no quotes and no
whitespace copies it (backslashes verbatim) and emits it at the end. -/
theorem winGo_word_nq : ∀ (w : Str) (p : Bool) (bs : Nat) (arg : Str) (ret : List Str),
    (∀ c ∈ w, c ≠ '"' ∧ isWhiteSpaceWin c = false) →
    doSplitArgsWinGo w true false p bs arg ret =
      (SplitError.SplitOk, ret ++ [arg ++ bsRun bs ++ w]) := by
  intro w
  induction w with
  | nil => intro p bs arg ret _; simp [doSplitArgsWinGo]
  | cons c w ih =>
    intro p bs arg ret h
    obtain ⟨hq, hws⟩ := h c (by simp)
    have hrest : ∀ x ∈ w, x ≠ '"' ∧ isWhiteSpaceWin x = false :=
      fun x hx => h x (List.mem_cons_of_mem _ hx)
    by_cases hb : c = '\\'
    · subst hb
      show doSplitArgsWinGo w true false false (bs + 1) arg ret = _
      rw [ih false (bs + 1) arg ret hrest, bsRun_succ]
      simp
    · have hb' : (c == '\\') = false := beq_false_of_ne hb
      have hq' : (c == '"') = false := beq_false_of_ne hq
      simp only [doSplitArgsWinGo, hb', hq', hws, Bool.false_eq_true, if_false]
      rw [ih false 0 (arg ++ bsRun bs ++ [c]) ret hrest]
      simp [bsRun]

/-- Helper: scanning quote-free in-quote content (not ending in a
backslash together with the pending run) up to the closing quote. -/
theorem winGo_inquote_scan : ∀ (w : Str) (bs : Nat) (arg : Str) (ret : List Str) (r : Str),
    (∀ c ∈ w, c ≠ '"') → (bsRun bs ++ w).getLast? ≠ some '\\' →
    doSplitArgsWinGo (w ++ '"' :: r) true true false bs arg ret =
      doSplitArgsWinGo r true false true 0 (arg ++ bsRun bs ++ w) ret := by
  intro w
  induction w with
  | nil =>
    intro bs arg ret r _ hl
    have hbs : bs = 0 := by
      cases bs with
      | zero => rfl
      | succ n =>
        exfalso
        apply hl
        show (bsRun (n + 1) ++ []).getLast? = some '\\'
        rw [bsRun_succ]
        simp
    subst hbs
    show doSplitArgsWinGo ('"' :: r) true true false 0 arg ret = _
    simp [doSplitArgsWinGo]
  | cons c w ih =>
    intro bs arg ret r hq hl
    have hqc := hq c (by simp)
    have hqrest : ∀ x ∈ w, x ≠ '"' := fun x hx => hq x (List.mem_cons_of_mem _ hx)
    by_cases hb : c = '\\'
    · subst hb
      show doSplitArgsWinGo (w ++ '"' :: r) true true false (bs + 1) arg ret = _
      have hl' : (bsRun (bs + 1) ++ w).getLast? ≠ some '\\' := by
        rw [bsRun_succ]
        simpa using hl
      rw [ih (bs + 1) arg ret r hqrest hl', bsRun_succ]
      simp
    · have hb' : (c == '\\') = false := beq_false_of_ne hb
      have hq' : (c == '"') = false := beq_false_of_ne hqc
      have hl' : (bsRun 0 ++ w).getLast? ≠ some '\\' := by
        cases w with
        | nil => simp [bsRun]
        | cons d w' =>
          intro hcon
          apply hl
          rw [List.getLast?_append_cons, List.getLast?_cons_cons]
          simpa [bsRun] using hcon
      have hstep : doSplitArgsWinGo ((c :: w) ++ '"' :: r) true true false bs arg ret =
          doSplitArgsWinGo (w ++ '"' :: r) true true false 0 (arg ++ bsRun bs ++ [c]) ret := by
        cases hwsc : isWhiteSpaceWin c with
        | false => simp only [List.cons_append, doSplitArgsWinGo, hb', hq', hwsc,
            Bool.false_eq_true, if_false, List.append_eq]
        | true => simp only [List.cons_append, doSplitArgsWinGo, hb', hq', hwsc,
            Bool.false_eq_true, if_false, if_true, List.append_eq]
      rw [hstep, ih 0 (arg ++ bsRun bs ++ [c]) ret r hqrest hl']
      simp [bsRun]
/-- Helper: the embedded-quote replacement leaves quote-free strings
unchanged, apart from flushing the pending backslash run. -/
theorem winQuoteReplace_no_quote : ∀ (s : Str) (bs : Nat), (∀ c ∈ s, c ≠ '"') →
    winQuoteReplaceGo s bs = bsRun bs ++ s := by
  intro s
  induction s with
  | nil => intro bs _; simp [winQuoteReplaceGo]
  | cons c s ih =>
    intro bs h
    have hc := h c (by simp)
    have hrest : ∀ x ∈ s, x ≠ '"' := fun x hx => h x (List.mem_cons_of_mem _ hx)
    by_cases hb : c = '\\'
    · subst hb
      show winQuoteReplaceGo s (bs + 1) = _
      rw [ih (bs + 1) hrest, bsRun_succ]
      simp
    · have hb' : (c == '\\') = false := beq_false_of_ne hb
      have hq' : (c == '"') = false := beq_false_of_ne hc
      simp only [winQuoteReplaceGo, hb', hq', Bool.false_eq_true, if_false]
      rw [ih 0 hrest]
      simp [bsRun]

/-- Helper: a string decomposes at its trailing backslash run, and the part
before it does not end in a backslash. -/
theorem trailing_decomp (s : Str) :
    s.take (s.length - trailingBsCount s) ++ bsRun (trailingBsCount s) = s ∧
    (s.take (s.length - trailingBsCount s)).getLast? ≠ some '\\' := by
  set k := trailingBsCount s with hk
  set dw := (s.reverse.dropWhile (fun c => c == '\\')).reverse with hdw
  have htw : s.reverse.takeWhile (fun c => c == '\\') = bsRun k := by
    have hlen : (s.reverse.takeWhile (fun c => c == '\\')).length = k := rfl
    rw [bsRun, ← hlen]
    exact List.eq_replicate_length.mpr
      (fun b hb => by simpa using List.mem_takeWhile_imp hb)
  have hsdec : s = dw ++ bsRun k := by
    conv_lhs => rw [← s.reverse_reverse,
      ← List.takeWhile_append_dropWhile (fun c => c == '\\') s.reverse]
    rw [List.reverse_append, htw, bsRun, List.reverse_replicate, hdw]
  have hlent : dw.length = s.length - k := by
    have hc := congrArg List.length hsdec
    simp only [List.length_append, bsRun, List.length_replicate] at hc
    omega
  have htake : s.take (s.length - k) = dw := by
    rw [← hlent]
    conv_lhs => rw [hsdec]
    exact List.take_left' rfl
  constructor
  · rw [htake, ← hsdec]
  · rw [htake, hdw, List.getLast?_reverse]
    intro hcon
    have h0 := List.head?_dropWhile_not (fun c => c == '\\') s.reverse
    rw [hcon] at h0
    simp at h0

/-- Helper: the Windows side of the round trip, for arguments with no
embedded double quote. -/
theorem c1_roundtrip_win (s : Str) (hq : ∀ c ∈ s, c ≠ '"') :
    splitArgsWin 0 (quoteArgWin s) false none none = (SplitError.SplitOk, [s]) := by
  by_cases hs : s = []
  · subst hs; rfl
  · by_cases hsp : hasSpecialCharsWin s = true
    · obtain ⟨hdec, hlast⟩ := trailing_decomp s
      set k := trailingBsCount s with hk
      set t := s.take (s.length - k) with ht
      have hlent : t.length = s.length - k := by
        have hc := congrArg List.length hdec
        simp only [List.length_append, bsRun, List.length_replicate] at hc
        omega
      have hr : winQuoteReplaceGo s 0 = s := by
        rw [winQuoteReplace_no_quote s 0 hq]; simp [bsRun]
      have hdrop : s.drop (s.length - k) = bsRun k := by
        rw [← hlent]
        conv_lhs => rw [← hdec]
        exact List.drop_left' rfl
      have hquote : quoteArgWin s = '"' :: (t ++ '"' :: bsRun k) := by
        simp only [quoteArgWin, hs, if_false, hsp, if_true, hr]
        rw [hdrop, ← hk, ← ht]
      rw [hquote]
      show doSplitArgsWinGo (t ++ '"' :: bsRun k) true true false 0 [] [] = _
      rw [winGo_inquote_scan t 0 [] [] (bsRun k)
        (fun c hc => hq c (List.mem_of_mem_take (ht ▸ hc)))
        (by simpa [bsRun] using hlast)]
      rw [winGo_word_nq (bsRun k) true 0 _ []
        (fun c hc => by
          have hcb : c = '\\' := by
            simpa using List.eq_of_mem_replicate (by simpa [bsRun] using hc)
          subst hcb; exact ⟨by decide, by decide⟩)]
      rw [← hdec]
      simp [bsRun]
    · have hsp' : hasSpecialCharsWin s = false := by simpa using hsp
      have hall : ∀ c ∈ s, isSpecialCharWin c = false := by
        simpa [hasSpecialCharsWin, List.any_eq_true] using hsp'
      have hcw : ∀ c ∈ s, c ≠ '"' ∧ isWhiteSpaceWin c = false := by
        intro c hc
        refine ⟨hq c hc, ?_⟩
        cases hws : isWhiteSpaceWin c with
        | false => rfl
        | true =>
          exfalso
          have hspec : isSpecialCharWin c = true := by
            rcases Decidable.em (c = ' ') with h' | h'
            · subst h'; decide
            · rcases Decidable.em (c = '\t') with h2 | h2
              · subst h2; decide
              · exfalso
                have hf : isWhiteSpaceWin c = false := by
                  simp [isWhiteSpaceWin, h', h2]
                rw [hf] at hws; exact Bool.noConfusion hws
          rw [hall c hc] at hspec
          exact Bool.noConfusion hspec
      have hquote : quoteArgWin s = s := by simp [quoteArgWin, hs, hsp']
      rw [hquote]
      obtain ⟨c, w, rfl⟩ : ∃ c w, s = c :: w := by
        cases s with
        | nil => exact absurd rfl hs
        | cons c w => exact ⟨c, w, rfl⟩
      have hwrest : ∀ x ∈ w, x ≠ '"' ∧ isWhiteSpaceWin x = false :=
        fun x hx => hcw x (List.mem_cons_of_mem _ hx)
      by_cases hb : c = '\\'
      · subst hb
        show doSplitArgsWinGo w true false false 1 [] [] = _
        rw [winGo_word_nq w false 1 [] [] hwrest]
        simp [bsRun]
      · have hb' : (c == '\\') = false := beq_false_of_ne hb
        have hq' : (c == '"') = false := beq_false_of_ne (hcw c (by simp)).1
        have hws' := (hcw c (by simp)).2
        show doSplitArgsWinGo (c :: w) false false false 0 [] [] = _
        simp only [doSplitArgsWinGo, hb', hq', hws', Bool.false_eq_true, if_false]
        rw [winGo_word_nq w false 0 _ [] hwrest]
        simp [bsRun]

/-- C1 (amended): for every argument free of leading/trailing whitespace,
splitting the quoted argument gives back exactly that word as the single
element of the word list, with SplitOk — on the Unix grammar provided no
character of the argument is a Unicode-only space (accepted by
QChar::isSpace but missing from the quoting special set), and on the
Windows grammar provided the argument contains no double quote (the claim
as stated fails there, see the counterexample). -/
theorem c1_quote_split_roundtrip :
    (∀ home s, noEdgeWs s = true →
       (∀ c ∈ s, qIsSpace c = true → isSpecialCharUnix c = true) →
       splitArgsUnix home (quoteArgUnix s) false none none =
         (SplitError.SplitOk, [s])) ∧
    (∀ s, noEdgeWs s = true → (∀ c ∈ s, c ≠ '"') →
       splitArgsWin 0 (quoteArgWin s) false none none =
         (SplitError.SplitOk, [s])) :=
  ⟨fun home s _ h2 => c1_roundtrip_unix home s h2,
   fun s _ h2 => c1_roundtrip_win s h2⟩

/-- Counterexample to C1 as stated: for the argument a-quote-b (no leading
or trailing whitespace), Windows quoting emits cmd-level caret escapes that
the plain CRT tokenization used by splitArgs on the Windows grammar
mis-parses: the split is BadQuoting with an empty word list, not the single
original word with SplitOk. -/
theorem c1_quote_split_counterexample :
    splitArgsWin 0 (quoteArgWin ("a\"b").toList) false none none =
      (SplitError.BadQuoting, []) ∧
    splitArgsWin 0 (quoteArgWin ("a\"b").toList) false none none ≠
      (SplitError.SplitOk, [("a\"b").toList]) := by
  exact ⟨by decide, by decide⟩

/-- Witness for c1_quote_split_roundtrip at concrete arguments. -/
theorem c1_quote_split_witness :
    splitArgsUnix [] (quoteArgUnix ("a b").toList) false none none =
      (SplitError.SplitOk, [("a b").toList]) ∧
    splitArgsWin 0 (quoteArgWin ("p q\\").toList) false none none =
      (SplitError.SplitOk, [("p q\\").toList]) :=
  ⟨c1_quote_split_roundtrip.1 [] ("a b").toList (by decide) (by decide),
   c1_quote_split_roundtrip.2 ("p q\\").toList (by decide) (by decide)⟩

/-- Witness for c4_unix_env_expansion at the value from the specification
example. -/
theorem c4_unix_env_expansion_witness :
    splitArgsUnix [] ("echo $FOO").toList false (some (envFOO ("x y").toList)) none =
      (SplitError.SplitOk, ("echo").toList :: fieldsOn ("x y").toList) ∧
    splitArgsUnix [] ("echo \"$FOO\"").toList false (some (envFOO ("x y").toList)) none =
      (SplitError.SplitOk, [("echo").toList, ("x y").toList]) :=
  c4_unix_env_expansion [] ("x y").toList (by decide)

/-- Helper: the std::unique worker computes the run-collapsing recursion. -/
theorem uniqueAdjGo_eq_collapse (cs : Str) : ∀ c : Char,
    c :: uniqueAdjGo (fun c1 c2 => c1 == '\r' && c2 == '\r') c cs =
      collapseCRruns (c :: cs) := by
  induction cs with
  | nil => intro c; rfl
  | cons c2 cs ih =>
    intro c
    by_cases h : c = '\r' ∧ c2 = '\r'
    · obtain ⟨rfl, rfl⟩ := h
      simp only [uniqueAdjGo, collapseCRruns]
      simpa using ih '\r'
    · have hb : (c == '\r' && c2 == '\r') = false := by
        rcases Decidable.em (c = '\r') with hc | hc
        · rcases Decidable.em (c2 = '\r') with hc2 | hc2
          · exact absurd ⟨hc, hc2⟩ h
          · simp [hc2]
        · simp [hc]
      simp only [uniqueAdjGo, collapseCRruns, hb]
      simp only [Bool.false_eq_true, if_false]
      exact congrArg (c :: ·) (ih c2)

/-- C6: QtcProcess::normalizeNewlines first collapses every run of
consecutive carriage returns to a single carriage return and then collapses
every CRLF pair to LF; in particular "a\r\r\nb" normalizes to "a\nb". -/
theorem c6_normalize_newlines :
    (∀ s : Str, normalizeNewlines s = replaceCRLF (collapseCRruns s)) ∧
    normalizeNewlines ['a', '\r', '\r', '\n', 'b'] = ['a', '\n', 'b'] := by
  constructor
  · intro s
    cases s with
    | nil => rfl
    | cons c cs =>
      show replaceCRLF (c :: uniqueAdjGo _ c cs) = _
      rw [uniqueAdjGo_eq_collapse]
  · rfl

/-- C8: in slotFinished, a crash exit preserves an already latched Hang
(setting only the exit code to minus one), otherwise reports
TerminatedAbnormally; a normal exit always stores the exit-code
interpreter's verdict. -/
theorem c8_hang_priority :
    (∀ interp prev code, prev.result = SyncResult.Hang →
        slotFinished interp prev code ExitStatus.CrashExit =
          { result := SyncResult.Hang, exitCode := -1 }) ∧
    (∀ interp prev code, prev.result ≠ SyncResult.Hang →
        slotFinished interp prev code ExitStatus.CrashExit =
          { result := SyncResult.TerminatedAbnormally, exitCode := -1 }) ∧
    (∀ interp prev code, slotFinished interp prev code ExitStatus.NormalExit =
        { result := interp code, exitCode := code }) := by
  refine ⟨?_, ?_, ?_⟩ <;> intro interp prev code
  · intro h; simp [slotFinished, h]
  · intro h; simp [slotFinished, h]
  · rfl

/-- Witness for c8_hang_priority at concrete inputs. -/
theorem c8_hang_priority_witness :
    slotFinished defaultExitCodeInterpreter ⟨SyncResult.Hang, 0⟩ 9 ExitStatus.CrashExit =
      { result := SyncResult.Hang, exitCode := -1 } ∧
    slotFinished defaultExitCodeInterpreter ⟨SyncResult.Finished, 0⟩ 9 ExitStatus.CrashExit =
      { result := SyncResult.TerminatedAbnormally, exitCode := -1 } :=
  ⟨c8_hang_priority.1 _ _ _ rfl, c8_hang_priority.2.1 _ _ _ (by decide)⟩

/-- C10: setTimeoutS clamps a positive timeout below by two seconds (so a
requested one-second timeout becomes two) and maps any non-positive timeout
to INT_MAX divided by 1000. -/
theorem c10_timeout_clamp :
    (∀ t : Int, t > 0 → setTimeoutS t = max 2 t) ∧
    setTimeoutS 1 = 2 ∧
    (∀ t : Int, t ≤ 0 → setTimeoutS t = 2147483) := by
  refine ⟨?_, by decide, ?_⟩
  · intro t ht; simp [setTimeoutS, ht]
  · intro t ht
    have : ¬ t > 0 := by omega
    simp [setTimeoutS, this, INT_MAX]

/-- Witness for c10_timeout_clamp at concrete inputs. -/
theorem c10_timeout_clamp_witness :
    setTimeoutS 7 = max 2 7 ∧ setTimeoutS (-3) = 2147483 :=
  ⟨c10_timeout_clamp.1 7 (by decide), c10_timeout_clamp.2.2 (-3) (by decide)⟩

/-! ### C3: unterminated trailing quote on Windows -/

/-- Helper: mapping preserves definedness of an optional string. -/
theorem optMap_isSome (f : Str → Str) (o : Option Str) : (o.map f).isSome = o.isSome := by
  cases o <;> rfl

/-- Helper: the prepare-phase scan copies a quoted span verbatim and
tolerates its quote staying open at end of string. -/
theorem prepScan_quote_content : ∀ (t : Str), (∀ c ∈ t, c ≠ '"') →
    prepareScanWinGo t true = some t := by
  intro t
  induction t with
  | nil => intro _; rfl
  | cons c r ih =>
    intro h
    have hc : (c == '"') = false := beq_false_of_ne (h c (by simp))
    rw [prepareScanWinGo.eq_def]
    simp only [hc, Bool.false_eq_true, if_false, if_true]
    rw [ih (fun x hx => h x (List.mem_cons_of_mem _ hx))]
    rfl

/-- Helper: the CRT tokenizer reports BadQuoting when the input ends while
the double-quoting is still open. -/
theorem winGo_unterminated : ∀ (t : Str) (bs : Nat) (arg : Str) (ret : List Str),
    (∀ c ∈ t, c ≠ '"') →
    doSplitArgsWinGo t true true false bs arg ret = (SplitError.BadQuoting, []) := by
  intro t
  induction t with
  | nil => intro bs arg ret _; rfl
  | cons c r ih =>
    intro bs arg ret h
    have hq : c ≠ '"' := h c (by simp)
    have hrest : ∀ x ∈ r, x ≠ '"' := fun x hx => h x (List.mem_cons_of_mem _ hx)
    by_cases hb : c = '\\'
    · subst hb
      show doSplitArgsWinGo r true true false (bs + 1) arg ret = _
      exact ih (bs + 1) arg ret hrest
    · have hb' : (c == '\\') = false := beq_false_of_ne hb
      have hq' : (c == '"') = false := beq_false_of_ne hq
      cases hws : isWhiteSpaceWin c with
      | false =>
        simp only [doSplitArgsWinGo, hb', hq', hws, Bool.false_eq_true, if_false]
        exact ih 0 _ ret hrest
      | true =>
        simp only [doSplitArgsWinGo, hb', hq', hws, Bool.false_eq_true, if_false, if_true]
        exact ih 0 _ ret hrest

/-- C3 (amended): for an input opening with a double quote that is never
closed (no percent sign, so the prepare phase is not aborted), the
abortOnMeta prepare phase itself tolerates the open quote and returns the
input unchanged with SplitOk, but splitArgs on Windows then reports
BadQuoting with an empty word list from the CRT tokenization phase — not
SplitOk as the claim states. -/
theorem c3_unterminated_quote_amended (t : Str) (hq : ∀ c ∈ t, c ≠ '"')
    (hp : ∀ c ∈ t, c ≠ '%') :
    prepareArgsWin 0 ('"' :: t) none none = (SplitError.SplitOk, '"' :: t) ∧
    splitArgsWin 0 ('"' :: t) true none none = (SplitError.BadQuoting, []) := by
  have hpc : (('"' :: t).any (fun c => c == '%')) = false := by
    simp only [List.any_cons, Bool.or_eq_false_iff]
    refine ⟨by decide, ?_⟩
    rw [List.any_eq_false]
    intro x hx
    simpa using hp x hx
  have hscan : prepareScanWinGo ('"' :: t) false = some ('"' :: t) := by
    rw [prepareScanWinGo.eq_def]
    simp [prepScan_quote_content t hq]
  have hprep : prepareArgsWin 0 ('"' :: t) none none = (SplitError.SplitOk, '"' :: t) := by
    have h1 : prepareArgsWin 0 ('"' :: t) none none =
        if (('"' :: t).any (fun c => c == '%')) = true then (SplitError.FoundMeta, [])
        else prepareArgsWinTail ('"' :: t) := rfl
    have h2 : prepareArgsWinTail ('"' :: t) =
        match prepareScanWinGo ('"' :: t) false with
        | none => (SplitError.FoundMeta, ([] : Str))
        | some s => (SplitError.SplitOk, s) := rfl
    rw [h1, hpc]
    simp only [Bool.false_eq_true, if_false]
    rw [h2, hscan]
  refine ⟨hprep, ?_⟩
  have h3 : splitArgsWin 0 ('"' :: t) true none none =
      (match prepareArgsWin 0 ('"' :: t) none none with
       | (SplitError.SplitOk, a) => doSplitArgsWin a
       | (e, _) => (e, [])) := rfl
  rw [h3, hprep]
  show doSplitArgsWinGo t true true false 0 [] [] = _
  exact winGo_unterminated t 0 [] [] hq

/-- Counterexample to C3 as stated: on the input consisting of one opening
double quote followed by abc (not aborted by the prepare phase), splitArgs
on Windows returns BadQuoting and an empty list, not SplitOk with the split
words. -/
theorem c3_unterminated_quote_counterexample :
    splitArgsWin 0 ("\"abc").toList true none none = (SplitError.BadQuoting, []) ∧
    (splitArgsWin 0 ("\"abc").toList true none none).1 ≠ SplitError.SplitOk := by
  exact ⟨by decide, by decide⟩

/-- Witness for c3_unterminated_quote_amended at a concrete input. -/
theorem c3_unterminated_quote_witness :
    prepareArgsWin 0 ('"' :: ("abc").toList) none none =
      (SplitError.SplitOk, '"' :: ("abc").toList) ∧
    splitArgsWin 0 ('"' :: ("abc").toList) true none none =
      (SplitError.BadQuoting, []) :=
  c3_unterminated_quote_amended ("abc").toList (by decide) (by decide)

/-! ### C9: unknown Windows environment references stay verbatim -/

/-- Helper: the prepare scan succeeds on any string free of cmd
metacharacters (length-bounded induction, since the caret step consumes two
characters). -/
theorem prepScan_no_meta : ∀ (n : Nat) (s : Str) (q : Bool), s.length ≤ n →
    (∀ c ∈ s, isMetaCharWin c = false) → (prepareScanWinGo s q).isSome = true := by
  intro n
  induction n with
  | zero =>
    intro s q hl _
    cases s with
    | nil => rfl
    | cons c r => simp at hl
  | succ n ih =>
    intro s q hl h
    cases s with
    | nil => rfl
    | cons c r =>
      have hn : r.length ≤ n := by simpa using hl
      have hr : ∀ x ∈ r, isMetaCharWin x = false :=
        fun x hx => h x (List.mem_cons_of_mem _ hx)
      cases q with
      | true =>
        rw [prepareScanWinGo.eq_def]
        by_cases hc : c = '"'
        · subst hc
          simp only [beq_self_eq_true, if_true, optMap_isSome]
          exact ih r false hn hr
        · have hc' : (c == '"') = false := beq_false_of_ne hc
          simp only [hc', Bool.false_eq_true, if_false, if_true, optMap_isSome]
          exact ih r true hn hr
      | false =>
        rw [prepareScanWinGo.eq_def]
        by_cases hcar : c = '^'
        · subst hcar
          simp only [beq_self_eq_true, if_true, Bool.false_eq_true, if_false]
          cases r with
          | nil => rfl
          | cons x r2 =>
            have h2 : r2.length ≤ n := by
              simp only [List.length_cons] at hn
              omega
            simp only [optMap_isSome]
            exact ih r2 false h2 (fun y hy => hr y (List.mem_cons_of_mem _ hy))
        · have hcar' : (c == '^') = false := beq_false_of_ne hcar
          by_cases hc : c = '"'
          · subst hc
            simp only [hcar', Bool.false_eq_true, if_false, beq_self_eq_true,
              if_true, optMap_isSome]
            exact ih r true hn hr
          · have hc' : (c == '"') = false := beq_false_of_ne hc
            simp only [hcar', hc', h c (by simp), Bool.false_eq_true, if_false,
              optMap_isSome]
            exact ih r false hn hr

/-- Helper: the prepare tail (at-sign strip plus metacharacter scan)
succeeds on any string free of cmd metacharacters. -/
theorem prepTail_ok (s : Str) (h : ∀ c ∈ s, isMetaCharWin c = false) :
    (prepareArgsWinTail s).1 = SplitError.SplitOk := by
  have hsub : ∀ c ∈ stripAt s, isMetaCharWin c = false := by
    intro c hc
    apply h
    cases s with
    | nil => simpa [stripAt] using hc
    | cons d r =>
      by_cases hd : (d == '@') = true
      · exact List.mem_cons_of_mem _ (by simpa [stripAt, hd] using hc)
      · have hd' : (d == '@') = false := by simpa using hd
        simpa [stripAt, hd'] using hc
  have hsome := prepScan_no_meta (stripAt s).length (stripAt s) false (le_refl _) hsub
  have h2 : prepareArgsWinTail s =
      match prepareScanWinGo (stripAt s) false with
      | none => (SplitError.FoundMeta, ([] : Str))
      | some t => (SplitError.SplitOk, t) := rfl
  rw [h2]
  cases hscan : prepareScanWinGo (stripAt s) false with
  | none => rw [hscan] at hsome; exact Bool.noConfusion hsome
  | some t => rfl

/-- Helper: one-step unfolding of the environment expansion scan. -/
theorem envExpandGo_succ (env : Env) (pwd : Option Str) (fuel : Nat) (s : Str)
    (off : Nat) (prev : Option Nat) :
    envExpandGo env pwd (fuel + 1) s off prev =
      (match indexOfFrom s '%' off with
       | none => s
       | some that =>
         match prev with
         | none => envExpandGo env pwd fuel s (that + 1) (some that)
         | some p =>
           let name := qToUpper ((s.drop (p + 1)).take (that - p - 1))
           let val :=
             match pwd with
             | some w =>
               if name = ['C', 'D'] ∧ w ≠ [] then toNativeSeparators w
               else expandedValueForKey env name
             | none => expandedValueForKey env name
           if val = [] then envExpandGo env pwd fuel s (that + 1) (some that)
           else
             let s2 := s.take p ++ val ++ s.drop (that + 1)
             envExpandGo env pwd fuel s2 (p + val.length) none) := rfl

/-- C9: with an environment supplied, every percent-name reference whose
looked-up value is empty (the variable does not exist) is left verbatim by
envExpandWin — when all referenced names are unset the string comes back
completely unchanged — and leftover percent signs never make prepareArgsWin
report FoundMeta or any other error: percent is not in the scanned
metacharacter set, and the prepare phase succeeds on any input free of cmd
metacharacters. -/
theorem c9_unknown_env_refs_verbatim :
    (∀ env : Env, (∀ n, expandedValueForKey env n = []) →
       ∀ fuel s off prev, envExpandGo env none fuel s off prev = s) ∧
    isMetaCharWin '%' = false ∧
    (∀ env : Env, (∀ n, expandedValueForKey env n = []) →
       ∀ fuel s, (∀ c ∈ s, isMetaCharWin c = false) →
         (prepareArgsWin fuel s (some env) none).1 = SplitError.SplitOk) := by
  have hgo : ∀ env : Env, (∀ n, expandedValueForKey env n = []) →
      ∀ fuel s off prev, envExpandGo env none fuel s off prev = s := by
    intro env hemp fuel
    induction fuel with
    | zero => intro s off prev; rfl
    | succ fuel ih =>
      intro s off prev
      rw [envExpandGo_succ]
      cases hidx : indexOfFrom s '%' off with
      | none => rfl
      | some that =>
        cases prev with
        | none => exact ih s (that + 1) (some that)
        | some p =>
          simp only [hemp, if_true]
          exact ih s (that + 1) (some that)
  refine ⟨hgo, by decide, ?_⟩
  intro env hemp fuel s hmeta
  have h1 : prepareArgsWin fuel s (some env) none =
      prepareArgsWinTail (envExpandWin env none fuel s) := rfl
  have h2 : envExpandWin env none fuel s = s := hgo env hemp fuel s 0 none
  rw [h1, h2]
  exact prepTail_ok s hmeta

/-! ### C7: incremental versus bulk normalization -/

/-- Helper: one-step unfolding of the std::unique scan. -/
theorem uniqGo_cons (last c : Char) (xs : Str) :
    uniqueAdjGo (fun c1 c2 => c1 == '\r' && c2 == '\r') last (c :: xs) =
      if (last == '\r' && c == '\r') = true then
        uniqueAdjGo (fun c1 c2 => c1 == '\r' && c2 == '\r') last xs
      else c :: uniqueAdjGo (fun c1 c2 => c1 == '\r' && c2 == '\r') c xs := rfl

/-- Helper: one-step unfolding of the CRLF replacement. -/
theorem replaceCRLF_cons2 (c1 c2 : Char) (cs : Str) :
    replaceCRLF (c1 :: c2 :: cs) =
      if (c1 == '\r' && c2 == '\n') = true then '\n' :: replaceCRLF cs
      else c1 :: replaceCRLF (c2 :: cs) := rfl

/-- Helper: getLast? of a cons with a default collapses to the tail with the
head as new default. -/
theorem getD_getLast_cons (c : Char) (xs : Str) (z : Char) :
    ((c :: xs).getLast?).getD z = (xs.getLast?).getD c := by
  cases xs with
  | nil => rfl
  | cons d xs =>
    rw [List.getLast?_cons_cons]
    cases h : (d :: xs).getLast? with
    | none => simp at h
    | some v => rfl

/-- Helper: when the pair predicate holds, both characters are carriage
returns and hence equal. -/
theorem crPair_eq {last c : Char} (hp : (last == '\r' && c == '\r') = true) :
    last = c := by
  have h1 : (last == '\r') = true ∧ (c == '\r') = true := by simpa using hp
  have h2 : last = '\r' := by simpa using h1.1
  have h3 : c = '\r' := by simpa using h1.2
  rw [h2, h3]

/-- Helper: the std::unique scan distributes over append; the comparison
element for the right part is the last element of the left part. -/
theorem uniqGo_append : ∀ (xs : Str) (last : Char) (ys : Str),
    uniqueAdjGo (fun c1 c2 => c1 == '\r' && c2 == '\r') last (xs ++ ys) =
      uniqueAdjGo (fun c1 c2 => c1 == '\r' && c2 == '\r') last xs ++
      uniqueAdjGo (fun c1 c2 => c1 == '\r' && c2 == '\r') ((xs.getLast?).getD last) ys := by
  intro xs
  induction xs with
  | nil => intro last ys; rfl
  | cons c xs ih =>
    intro last ys
    rw [List.cons_append, uniqGo_cons, uniqGo_cons, getD_getLast_cons]
    cases hp : (last == '\r' && c == '\r') with
    | true =>
      simp only [if_true]
      rw [crPair_eq hp]
      exact ih c ys
    | false =>
      simp only [Bool.false_eq_true, if_false, List.cons_append]
      rw [ih c ys]

/-- Helper: the std::unique scan preserves the last element relative to a
default. -/
theorem uniqGo_getLast : ∀ (xs : Str) (last : Char),
    ((uniqueAdjGo (fun c1 c2 => c1 == '\r' && c2 == '\r') last xs).getLast?).getD last =
      (xs.getLast?).getD last := by
  intro xs
  induction xs with
  | nil => intro last; rfl
  | cons c xs ih =>
    intro last
    rw [uniqGo_cons, getD_getLast_cons]
    cases hp : (last == '\r' && c == '\r') with
    | true =>
      simp only [if_true]
      rw [ih last, crPair_eq hp]
    | false =>
      simp only [Bool.false_eq_true, if_false]
      rw [getD_getLast_cons, ih c]

/-- Helper: a string without carriage returns passes std::unique
unchanged. -/
theorem uniqGo_no_cr : ∀ (xs : Str) (last : Char), (∀ c ∈ xs, c ≠ '\r') →
    uniqueAdjGo (fun c1 c2 => c1 == '\r' && c2 == '\r') last xs = xs := by
  intro xs
  induction xs with
  | nil => intro last _; rfl
  | cons c xs ih =>
    intro last h
    have hc : (c == '\r') = false := beq_false_of_ne (h c (by simp))
    rw [uniqGo_cons, hc, Bool.and_false]
    simp only [Bool.false_eq_true, if_false]
    rw [ih c (fun x hx => h x (List.mem_cons_of_mem _ hx))]

/-- Helper: a string without carriage returns passes the CRLF replacement
unchanged. -/
theorem replaceCRLF_no_cr : ∀ (n : Nat) (s : Str), s.length ≤ n →
    (∀ c ∈ s, c ≠ '\r') → replaceCRLF s = s := by
  intro n
  induction n with
  | zero =>
    intro s hl _
    cases s with
    | nil => rfl
    | cons c r => simp at hl
  | succ n ih =>
    intro s hl h
    match s with
    | [] => rfl
    | [c] => rfl
    | c1 :: c2 :: cs =>
      have hc1 : (c1 == '\r') = false := beq_false_of_ne (h c1 (by simp))
      rw [replaceCRLF_cons2, hc1, Bool.false_and]
      simp only [Bool.false_eq_true, if_false]
      have hcs : replaceCRLF (c2 :: cs) = c2 :: cs := by
        refine ih (c2 :: cs) ?_ (fun x hx => h x (List.mem_cons_of_mem _ hx))
        simp only [List.length_cons] at hl ⊢
        omega
      rw [hcs]

/-- Helper: a string without carriage returns is already normalized. -/
theorem normalize_no_cr (s : Str) (h : ∀ c ∈ s, c ≠ '\r') :
    normalizeNewlines s = s := by
  unfold normalizeNewlines
  cases s with
  | nil => rfl
  | cons c cs =>
    show replaceCRLF (c :: uniqueAdjGo _ c cs) = _
    rw [uniqGo_no_cr cs c (fun x hx => h x (List.mem_cons_of_mem _ hx))]
    exact replaceCRLF_no_cr (c :: cs).length _ (le_refl _) h

/-- Helper: the CRLF replacement distributes over an append whose left part
ends in a line feed, or ends in a carriage return that is not followed by a
line feed. -/
theorem replaceCRLF_append : ∀ (n : Nat) (A B : Str), A.length ≤ n →
    (A.getLast? = some '\n' ∨ (A.getLast? = some '\r' ∧ B.head? ≠ some '\n')) →
    replaceCRLF (A ++ B) = replaceCRLF A ++ replaceCRLF B := by
  intro n
  induction n with
  | zero =>
    intro A B hl hend
    cases A with
    | nil => simp at hend
    | cons c r => simp at hl
  | succ n ih =>
    intro A B hl hend
    match A with
    | [] => simp at hend
    | [a] =>
      have ha : a = '\n' ∨ (a = '\r' ∧ B.head? ≠ some '\n') := by
        simpa using hend
      cases B with
      | nil =>
        have hnil : replaceCRLF ([] : Str) = [] := rfl
        simp [hnil]
      | cons b B' =>
        have hab : (a == '\r' && b == '\n') = false := by
          rcases ha with ha | ⟨ha, hb⟩
          · subst ha; rfl
          · subst ha
            have hb' : (b == '\n') = false := by
              rcases Decidable.em (b = '\n') with h' | h'
              · subst h'; simp at hb
              · simp [h']
            rw [hb']
            simp
        show replaceCRLF (a :: b :: B') = _
        rw [replaceCRLF_cons2, hab]
        simp only [Bool.false_eq_true, if_false]
        rfl
    | a1 :: a2 :: A'' =>
      have hl' : (a2 :: A'').length ≤ n := by
        simp only [List.length_cons] at hl ⊢
        omega
      have hend' : (a2 :: A'').getLast? = some '\n' ∨
          ((a2 :: A'').getLast? = some '\r' ∧ B.head? ≠ some '\n') := by
        rw [List.getLast?_cons_cons] at hend
        exact hend
      show replaceCRLF (a1 :: a2 :: (A'' ++ B)) = _
      rw [replaceCRLF_cons2, replaceCRLF_cons2]
      cases hp : (a1 == '\r' && a2 == '\n') with
      | true =>
        simp only [if_true]
        cases hA : A'' with
        | nil =>
          subst hA
          have hnil : replaceCRLF ([] : Str) = [] := rfl
          simp [hnil]
        | cons x xs =>
          subst hA
          have hend'' : (x :: xs).getLast? = some '\n' ∨
              ((x :: xs).getLast? = some '\r' ∧ B.head? ≠ some '\n') := by
            rw [List.getLast?_cons_cons] at hend'
            exact hend'
          have hlen'' : (x :: xs).length ≤ n := by
            simp only [List.length_cons] at hl' ⊢
            omega
          rw [ih (x :: xs) B hlen'' hend'']
          simp
      | false =>
        simp only [Bool.false_eq_true, if_false, List.cons_append]
        rw [← List.cons_append, ih (a2 :: A'') B hl' hend']

/-- Helper: normalization splits at a boundary ending in a line feed, or
ending in a carriage return when the continuation does not begin with
another newline character. -/
theorem normalize_split (pre rest : Str)
    (h : pre.getLast? = some '\n' ∨
      (pre.getLast? = some '\r' ∧ ∀ c, rest.head? = some c → c ≠ '\r' ∧ c ≠ '\n')) :
    normalizeNewlines (pre ++ rest) = normalizeNewlines pre ++ normalizeNewlines rest := by
  obtain ⟨x, pre'', rfl⟩ : ∃ x pre'', pre = x :: pre'' := by
    cases pre with
    | nil => simp at h
    | cons x pre'' => exact ⟨x, pre'', rfl⟩
  have hlastv : ∃ e, (x :: pre'').getLast? = some e ∧ (e = '\n' ∨ e = '\r') := by
    rcases h with h | ⟨h, _⟩
    · exact ⟨'\n', h, Or.inl rfl⟩
    · exact ⟨'\r', h, Or.inr rfl⟩
  obtain ⟨e, he, hev⟩ := hlastv
  have hgetD : ((x :: pre'').getLast?).getD x = e := by rw [he]; rfl
  have hgd : ((pre''.getLast?).getD x) = e := by
    rw [← getD_getLast_cons x pre'' x]
    exact hgetD
  have huniq : uniqueAdj (fun c1 c2 => c1 == '\r' && c2 == '\r') ((x :: pre'') ++ rest) =
      uniqueAdj (fun c1 c2 => c1 == '\r' && c2 == '\r') (x :: pre'') ++
      uniqueAdj (fun c1 c2 => c1 == '\r' && c2 == '\r') rest := by
    show x :: uniqueAdjGo _ x (pre'' ++ rest) = (x :: uniqueAdjGo _ x pre'') ++ _
    rw [uniqGo_append, hgd]
    cases rest with
    | nil => rfl
    | cons y rest' =>
      have hpy : (e == '\r' && y == '\r') = false := by
        rcases hev with hev | hev
        · subst hev; rfl
        · subst hev
          have hy : y ≠ '\r' := by
            rcases h with h | ⟨_, hy⟩
            · rw [he] at h
              exact absurd (Option.some.inj h) (by decide)
            · exact (hy y rfl).1
          rw [beq_false_of_ne hy]
          simp
      rw [uniqGo_cons, hpy]
      simp only [Bool.false_eq_true, if_false]
      show x :: (uniqueAdjGo _ x pre'' ++ (y :: uniqueAdjGo _ y rest')) = _
      show _ = (x :: uniqueAdjGo _ x pre'') ++ (y :: uniqueAdjGo _ y rest')
      simp
  unfold normalizeNewlines
  rw [huniq]
  have hAlast : (uniqueAdj (fun c1 c2 => c1 == '\r' && c2 == '\r') (x :: pre'')).getLast? =
      some e := by
    show (x :: uniqueAdjGo (fun c1 c2 => c1 == '\r' && c2 == '\r') x pre'').getLast? = some e
    have h2 : ((x :: uniqueAdjGo (fun c1 c2 => c1 == '\r' && c2 == '\r') x pre'').getLast?).getD x = e := by
      rw [getD_getLast_cons, uniqGo_getLast, ← getD_getLast_cons x pre'' x, hgetD]
    cases hcase : (x :: uniqueAdjGo (fun c1 c2 => c1 == '\r' && c2 == '\r') x pre'').getLast? with
    | none => simp at hcase
    | some v =>
      rw [hcase] at h2
      simp only [Option.getD_some] at h2
      rw [h2]
  apply replaceCRLF_append
    ((uniqueAdj (fun c1 c2 => c1 == '\r' && c2 == '\r') (x :: pre'')).length) _ _ (le_refl _)
  rcases hev with hev | hev
  · subst hev
    exact Or.inl hAlast
  · subst hev
    refine Or.inr ⟨hAlast, ?_⟩
    cases rest with
    | nil => simp [uniqueAdj]
    | cons y rest' =>
      have hy : y ≠ '\n' := by
        rcases h with h | ⟨_, hy⟩
        · rw [he] at h
          exact absurd (Option.some.inj h) (by decide)
        · exact (hy y rfl).2
      show ((y :: uniqueAdjGo _ y rest').head? ≠ some '\n')
      simp [hy]

/-- Helper: cons recursion for the last index of a character. -/
theorem lastIndexOfC_cons (c : Char) (r : Str) (d : Char) :
    lastIndexOfC (c :: r) d =
      match lastIndexOfC r d with
      | some k => some (k + 1)
      | none => if c == d then some 0 else none := by
  unfold lastIndexOfC
  rw [List.reverse_cons, List.findIdx?_append]
  cases hf : List.findIdx? (fun x => x == d) r.reverse with
  | some k =>
    obtain ⟨hk, -⟩ := List.findIdx?_eq_some_iff_getElem.mp hf
    rw [List.length_reverse] at hk
    simp only [Option.or_some, List.length_cons, Option.some.injEq]
    omega
  | none =>
    simp only [Option.none_or, List.findIdx?_cons, List.findIdx?_nil]
    cases hc : (c == d) with
    | true =>
      simp only [eq_self_iff_true, if_true, Option.map_some', List.length_reverse,
        List.length_cons, Option.some.injEq]
      omega
    | false =>
      simp

/-- Helper: cons recursion for the last-newline cut position. -/
theorem lastNewlineIndex_cons (c : Char) (r : Str) :
    lastNewlineIndex (c :: r) =
      match lastNewlineIndex r with
      | some k => some (k + 1)
      | none => if (c == '\n' || c == '\r') then some 0 else none := by
  unfold lastNewlineIndex
  rw [lastIndexOfC_cons, lastIndexOfC_cons]
  cases h1 : lastIndexOfC r '\n' with
  | some i =>
    cases h2 : lastIndexOfC r '\r' with
    | some j =>
      simp only [Option.some.injEq]
      omega
    | none =>
      cases hc : (c == '\r') with
      | true =>
        simp only [if_true, Option.some.injEq]
        omega
      | false =>
        simp
  | none =>
    cases h2 : lastIndexOfC r '\r' with
    | some j =>
      cases hc : (c == '\n') with
      | true =>
        simp only [if_true, Option.some.injEq, Bool.true_or]
        omega
      | false =>
        simp
    | none =>
      cases hc1 : (c == '\n') with
      | true =>
        rcases Decidable.em (c = '\r') with h' | h' <;> simp [h']
      | false =>
        cases hc2 : (c == '\r') with
        | true => simp
        | false => simp

/-- Helper: characterization of the last-newline cut position: when it is
absent the buffer holds no newline character, and when it is present the
delivered prefix ends in a newline character and the kept tail holds
none. -/
theorem lastNewlineIndex_spec : ∀ (s : Str),
    (lastNewlineIndex s = none → ∀ c ∈ s, c ≠ '\n' ∧ c ≠ '\r') ∧
    (∀ i, lastNewlineIndex s = some i →
      ∃ e, (s.take (i + 1)).getLast? = some e ∧ (e = '\n' ∨ e = '\r') ∧
        ∀ c ∈ s.drop (i + 1), c ≠ '\n' ∧ c ≠ '\r') := by
  intro s
  induction s with
  | nil =>
    constructor
    · intro _ c hc
      simp at hc
    · intro i hi
      exact absurd hi (by simp [lastNewlineIndex, lastIndexOfC])
  | cons c r ih =>
    rw [lastNewlineIndex_cons]
    cases h : lastNewlineIndex r with
    | some k =>
      constructor
      · intro hnone
        simp at hnone
      · intro i hi
        have hik : i = k + 1 := by
          simp only [Option.some.injEq] at hi
          omega
        subst hik
        obtain ⟨e, he1, he2, he3⟩ := (ih.2 k h)
        refine ⟨e, ?_, he2, ?_⟩
        · have htake : (c :: r).take (k + 1 + 1) = c :: r.take (k + 1) := rfl
          rw [htake]
          cases ht : r.take (k + 1) with
          | nil => rw [ht] at he1; simp at he1
          | cons x xs =>
            rw [ht] at he1
            rw [List.getLast?_cons_cons]
            exact he1
        · intro d hd
          rw [List.drop_succ_cons] at hd
          exact he3 d hd
    | none =>
      cases hc : (c == '\n' || c == '\r') with
      | true =>
        constructor
        · intro hnone
          simp at hnone
        · intro i hi
          have hi0 : i = 0 := by
            simp at hi
            omega
          subst hi0
          refine ⟨c, by simp, ?_, ?_⟩
          · rcases Bool.or_eq_true_iff.mp hc with h' | h'
            · exact Or.inl (by simpa using h')
            · exact Or.inr (by simpa using h')
          · intro d hd
            rw [List.drop_succ_cons, List.drop_zero] at hd
            exact ih.1 h d hd
      | false =>
        constructor
        · intro _ d hd
          rcases List.mem_cons.mp hd with rfl | hd
          · have h1 : (d == '\n') = false ∧ (d == '\r') = false := by
              simpa using hc
            constructor
            · intro he; rw [he] at h1; simp at h1
            · intro he; rw [he] at h1; exact absurd h1.2 (by simp)
          · exact ih.1 h d hd
        · intro i hi
          simp at hi

/-- Helper: the delivered batches followed by the kept tail equal the bulk
normalization, for any starting tail free of newline characters, provided no
chunk ends in a carriage return. -/
theorem processChunks_norm : ∀ (chunks : List Str) (tail : Str),
    (∀ c ∈ tail, c ≠ '\n' ∧ c ≠ '\r') →
    (∀ ch ∈ chunks, ch.getLast? ≠ some '\r') →
    (processChunks chunks tail).1 ++ (processChunks chunks tail).2 =
      normalizeNewlines (tail ++ chunks.flatten) := by
  intro chunks
  induction chunks with
  | nil =>
    intro tail htail _
    show ([] : Str) ++ tail = normalizeNewlines (tail ++ List.flatten [])
    rw [List.nil_append, List.flatten_nil, List.append_nil]
    exact (normalize_no_cr tail (fun c hc => (htail c hc).2)).symm
  | cons ch cs ih =>
    intro tail htail hch
    have hpc1 : (processChunks (ch :: cs) tail).1 =
        (linesRead (tail ++ ch)).1 ++ (processChunks cs (linesRead (tail ++ ch)).2).1 := rfl
    have hpc2 : (processChunks (ch :: cs) tail).2 =
        (processChunks cs (linesRead (tail ++ ch)).2).2 := rfl
    rw [hpc1, hpc2]
    have hcs : ∀ c ∈ cs, List.getLast? c ≠ some '\r' :=
      fun c hc => hch c (List.mem_cons_of_mem _ hc)
    cases hln : lastNewlineIndex (tail ++ ch) with
    | none =>
      have hlr : linesRead (tail ++ ch) = ([], tail ++ ch) := by
        unfold linesRead
        rw [hln]
      rw [hlr]
      have hb : ∀ c ∈ tail ++ ch, c ≠ '\n' ∧ c ≠ '\r' :=
        (lastNewlineIndex_spec (tail ++ ch)).1 hln
      simp only [List.nil_append, List.flatten_cons, ← List.append_assoc]
      exact ih (tail ++ ch) hb hcs
    | some i =>
      have hlr : linesRead (tail ++ ch) =
          (normalizeNewlines ((tail ++ ch).take (i + 1)), (tail ++ ch).drop (i + 1)) := by
        unfold linesRead
        rw [hln]
      rw [hlr]
      obtain ⟨e, he1, he2, he3⟩ := (lastNewlineIndex_spec (tail ++ ch)).2 i hln
      have hih := ih ((tail ++ ch).drop (i + 1)) he3 hcs
      rw [List.append_assoc, hih]
      have hsplit : normalizeNewlines ((tail ++ ch).take (i + 1) ++
            ((tail ++ ch).drop (i + 1) ++ cs.flatten)) =
          normalizeNewlines ((tail ++ ch).take (i + 1)) ++
            normalizeNewlines ((tail ++ ch).drop (i + 1) ++ cs.flatten) := by
        apply normalize_split
        rcases he2 with rfl | rfl
        · exact Or.inl he1
        · refine Or.inr ⟨he1, ?_⟩
          intro c hc
          cases hd : (tail ++ ch).drop (i + 1) with
          | cons d ds =>
            rw [hd] at hc
            have hcd : c = d := by
              simp only [List.cons_append, List.head?_cons] at hc
              exact (Option.some.inj hc).symm
            subst hcd
            have h3 := he3 c (by rw [hd]; exact List.mem_cons_self c ds)
            exact ⟨h3.2, h3.1⟩
          | nil =>
            exfalso
            have hlen : (tail ++ ch).length ≤ i + 1 := List.drop_eq_nil_iff.mp hd
            have htk : (tail ++ ch).take (i + 1) = tail ++ ch :=
              List.take_of_length_le hlen
            rw [htk, List.getLast?_append] at he1
            cases hcl : ch.getLast? with
            | some v =>
              rw [hcl] at he1
              simp only [Option.or_some, Option.some.injEq] at he1
              exact hch ch (List.mem_cons_self ch cs) (by rw [hcl, he1])
            | none =>
              rw [hcl] at he1
              simp only [Option.none_or] at he1
              have hm : Char.ofNat 13 ∈ tail := by
                have := List.mem_of_getLast?_eq_some he1
                simpa using this
              exact (htail _ hm).2 (by simp [Char.ofNat])
      have hflat : tail ++ List.flatten (ch :: cs) =
          (tail ++ ch).take (i + 1) ++ ((tail ++ ch).drop (i + 1) ++ cs.flatten) := by
        rw [List.flatten_cons, ← List.append_assoc]
        conv_lhs => rw [← List.take_append_drop (i + 1) (tail ++ ch)]
        rw [List.append_assoc]
      rw [hflat, hsplit]

/-- C7 (amended): for every partition of the output text into decoded chunks
in which no chunk ends in a carriage return, the concatenation of the
normalized line batches delivered incrementally by ChannelBuffer::linesRead,
followed by the final undelivered tail, equals normalizeNewlines applied once
to the whole text, as SynchronousProcessResponse::stdOut computes it. -/
theorem c7_incremental_bulk_normalization (chunks : List Str)
    (h : ∀ ch ∈ chunks, ch.getLast? ≠ some '\r') :
    (processChunks chunks []).1 ++ (processChunks chunks []).2 =
      normalizeNewlines chunks.flatten := by
  have hmain := processChunks_norm chunks [] (by intro c hc; simp at hc) h
  simpa using hmain

/-- Counterexample to C7 as stated: over the partition of the text a CR LF b
LF into the chunks a CR and LF b LF, the incremental delivery is complete (the
final tail is empty) yet the concatenation of the delivered normalized batches
differs from the bulk normalization of the whole text, because the carriage
return at the chunk boundary is delivered before the line feed that would have
collapsed with it. -/
theorem c7_incremental_bulk_counterexample :
    (processChunks [['a', '\r'], ['\n', 'b', '\n']] []).2 = [] ∧
    (processChunks [['a', '\r'], ['\n', 'b', '\n']] []).1 ≠
      normalizeNewlines (List.flatten [['a', '\r'], ['\n', 'b', '\n']]) := by
  decide

/-- Witness for c7_incremental_bulk_normalization at a concrete two-chunk
partition. -/
theorem c7_incremental_bulk_witness :
    (processChunks [['a', '\n'], ['b']] []).1 ++ (processChunks [['a', '\n'], ['b']] []).2 =
      normalizeNewlines (List.flatten [['a', '\n'], ['b']]) :=
  c7_incremental_bulk_normalization [['a', '\n'], ['b']] (by decide)

/-- Witness for c9_unknown_env_refs_verbatim at a concrete environment and
string. -/
theorem c9_unknown_env_refs_witness :
    envExpandGo (fun _ => none) none 5 ("%FOO% x").toList 0 none = ("%FOO% x").toList ∧
    (prepareArgsWin 5 ("%FOO% x").toList (some (fun _ => none)) none).1 =
      SplitError.SplitOk :=
  ⟨c9_unknown_env_refs_verbatim.1 (fun _ => none) (fun _ => rfl) 5 _ 0 none,
   c9_unknown_env_refs_verbatim.2.2 (fun _ => none) (fun _ => rfl) 5 _ (by decide)⟩

/-! ### C2: expandMacros failure-fast and atomicity -/

/-- Helper: a Unix configuration with a backslash escaping the pending
macro site makes the loop return false immediately. -/
theorem stepU_bad {f : Finder} {c : UCfg} (h : BadU c) : stepU f c = .ret none := by
  obtain ⟨h1, h2, h3, h4, h5⟩ := h
  unfold stepU
  rw [if_neg (by omega), if_neg h2]
  simp only [h3, if_neg h4]
  simp only [if_true]
  rw [if_pos h5]

/-- Helper: a Windows configuration whose macro site is circumflex-escaped
makes the loop return false immediately. -/
theorem stepW_bad {f : Finder} {c : WCfg} (h : BadW c) : stepW f c = .ret none := by
  obtain ⟨h1, h2⟩ := h
  unfold stepW
  rw [if_pos h1, if_pos h2]

/-- Helper: one-step unfolding of the fueled Unix run. -/
theorem runU_cont {f : Finder} {c c2 : UCfg} (h : stepU f c = .cont c2) (fuel : Nat) :
    runU f (fuel + 1) c = runU f fuel c2 := by
  show (match stepU f c with
    | .ret r => some r
    | .cont x => runU f fuel x) = runU f fuel c2
  rw [h]

/-- Helper: one-step unfolding of the fueled Windows run. -/
theorem runW_cont {f : Finder} {c c2 : WCfg} (h : stepW f c = .cont c2) (fuel : Nat) :
    runW f (fuel + 1) c = runW f fuel c2 := by
  show (match stepW f c with
    | .ret r => some r
    | .cont x => runW f fuel x) = runW f fuel c2
  rw [h]

/-- Helper: a Unix run started at a configuration from which a
backslash-escaped macro site is reachable never succeeds. -/
theorem runU_no_success {f : Finder} {c0 c : UCfg}
    (hr : Relation.ReflTransGen (stepRelU f) c0 c) (hb : BadU c) :
    ∀ fuel s, runU f fuel c0 ≠ some (some s) := by
  induction hr using Relation.ReflTransGen.head_induction_on with
  | refl =>
    intro fuel s
    cases fuel with
    | zero => simp [runU]
    | succ n =>
      show (match stepU f c with
        | .ret r => some r
        | .cont x => runU f n x) ≠ some (some s)
      rw [stepU_bad hb]
      simp
  | head hstep htail ih =>
    intro fuel s
    cases fuel with
    | zero => simp [runU]
    | succ n =>
      rw [runU_cont hstep n]
      exact ih n s

/-- Helper: a Windows run started at a configuration from which a
circumflex-escaped macro site is reachable never succeeds. -/
theorem runW_no_success {f : Finder} {c0 c : WCfg}
    (hr : Relation.ReflTransGen (stepRelW f) c0 c) (hb : BadW c) :
    ∀ fuel s, runW f fuel c0 ≠ some (some s) := by
  induction hr using Relation.ReflTransGen.head_induction_on with
  | refl =>
    intro fuel s
    cases fuel with
    | zero => simp [runW]
    | succ n =>
      show (match stepW f c with
        | .ret r => some r
        | .cont x => runW f n x) ≠ some (some s)
      rw [stepW_bad hb]
      simp
  | head hstep htail ih =>
    intro fuel s
    cases fuel with
    | zero => simp [runW]
    | succ n =>
      rw [runW_cont hstep n]
      exact ih n s

/-- Helper: the Unix wrapper returns the original string whenever it
returns false. -/
theorem expandU_atomic (fuel : Nat) (cmd : Str) (f : Finder) :
    (expandMacrosU fuel cmd f).1 = false → (expandMacrosU fuel cmd f).2 = cmd := by
  unfold expandMacrosU
  split
  · simp
  · split
    · simp
    · split
      · simp
      · simp

/-- Helper: the Windows wrapper returns the original string whenever it
returns false. -/
theorem expandW_atomic (fuel : Nat) (cmd : Str) (f : Finder) :
    (expandMacrosW fuel cmd f).1 = false → (expandMacrosW fuel cmd f).2 = cmd := by
  unfold expandMacrosW
  split
  · simp
  · split
    · simp
    · split
      · simp
      · simp

/-- C2: expandMacros is failure-fast and atomic. For every command string
and macro finder whose first macro is at (vp, vl, r): if the Unix loop can
reach a configuration whose pending macro site is backslash-escaped, the
whole expansion returns false with the string unchanged, for every fuel;
likewise on Windows for a circumflex-escaped macro site; and whenever
either wrapper returns false, the string passed back is exactly the
original command. -/
theorem c2_expand_macros_failfast_atomic
    (cmd : Str) (f : Finder) (fuel vp vl : Nat) (r : Str) (stU : UCfg) (stW : WCfg)
    (hne : cmd ≠ [])
    (hfind : f cmd 0 = some (vp, vl, r)) :
    (Relation.ReflTransGen (stepRelU f) (initU cmd vp vl r) stU → BadU stU →
        expandMacrosU fuel cmd f = (false, cmd)) ∧
    (Relation.ReflTransGen (stepRelW f) (initW cmd vp vl r) stW → BadW stW →
        expandMacrosW fuel cmd f = (false, cmd)) ∧
    ((expandMacrosU fuel cmd f).1 = false → (expandMacrosU fuel cmd f).2 = cmd) ∧
    ((expandMacrosW fuel cmd f).1 = false → (expandMacrosW fuel cmd f).2 = cmd) := by
  refine ⟨?_, ?_, expandU_atomic fuel cmd f, expandW_atomic fuel cmd f⟩
  · intro hr hb
    have hno := runU_no_success hr hb
    unfold expandMacrosU
    rw [if_neg hne, hfind]
    show (match runU f fuel (initU cmd vp vl r) with
      | some (some out) => (true, out)
      | _ => (false, cmd)) = (false, cmd)
    cases hrun : runU f fuel (initU cmd vp vl r) with
    | none => rfl
    | some o =>
      cases o with
      | none => rfl
      | some s => exact absurd hrun (hno fuel s)
  · intro hr hb
    have hno := runW_no_success hr hb
    unfold expandMacrosW
    rw [if_neg hne, hfind]
    show (match runW f fuel (initW cmd vp vl r) with
      | some (some out) => (true, out)
      | _ => (false, cmd)) = (false, cmd)
    cases hrun : runW f fuel (initW cmd vp vl r) with
    | none => rfl
    | some o =>
      cases o with
      | none => rfl
      | some s => exact absurd hrun (hno fuel s)

/-- Witness for c2_expand_macros_failfast_atomic: on Unix a macro directly
after a backslash is refused with the command unchanged; on Windows a
macro directly after a circumflex is refused with the command unchanged. -/
theorem c2_expand_macros_witness :
    expandMacrosU 9 ['\\', 'M'] testFinder = (false, ['\\', 'M']) ∧
    expandMacrosW 9 ['^', 'M'] testFinder = (false, ['^', 'M']) := by
  constructor
  · exact (c2_expand_macros_failfast_atomic ['\\', 'M'] testFinder 9 1 1 ['v']
      (initU ['\\', 'M'] 1 1 ['v']) (initW ['\\', 'M'] 1 1 ['v'])
      (by decide) (by decide)).1 Relation.ReflTransGen.refl (by unfold BadU; decide)
  · exact (c2_expand_macros_failfast_atomic ['^', 'M'] testFinder 9 1 1 ['v']
      (initU ['^', 'M'] 1 1 ['v'])
      { str := ['^', 'M'], pos := 1, varPos := 1, varLen := 1, rsts := ['v'], shellState := .ShellEscaped, crtState := .CrtBasic, bslashes := 0, rbslashes := 0 }
      (by decide) (by decide)).2.1
      (Relation.ReflTransGen.single (by unfold stepRelW; decide)) (by unfold BadW; decide)

/-! ### C5: iterator versus splitter agreement -/

/-- Helper: unpacking the restricted-alphabet predicate. -/
theorem plainC5_facts {c : Char} (h : plainC5 c = true) :
    (c == '$') = false ∧ (c == btick) = false ∧ (c == squote) = false ∧ (c == '"') = false ∧
    (c == '\\') = false ∧ (c == '(') = false ∧ (c == ')') = false ∧ (c == lbrace) = false ∧
    (c == rbrace) = false ∧ (c == '<') = false ∧ (c == '>') = false ∧ (c == '&') = false ∧
    (c == '|') = false ∧ (c == ';') = false ∧ (c == '~') = false ∧
    (qIsSpace c = true → c = ' ' ∨ c = '\t') := by
  unfold plainC5 at h
  rw [Bool.and_eq_true] at h
  obtain ⟨h1, h2⟩ := h
  rw [Bool.not_eq_true'] at h1
  simp only [Bool.or_eq_false_iff] at h1
  obtain ⟨⟨⟨⟨⟨⟨⟨⟨⟨⟨⟨⟨⟨⟨hd, hbt⟩, hsq⟩, hdq⟩, hbs⟩, hlp⟩, hrp⟩, hlb⟩, hrb⟩, hlt⟩, hgt⟩, ham⟩, hpi⟩, hse⟩, hti⟩ := h1
  refine ⟨hd, hbt, hsq, hdq, hbs, hlp, hrp, hlb, hrb, hlt, hgt, ham, hpi, hse, hti, ?_⟩
  intro hq
  rw [hq] at h2
  simp only [Bool.not_true, Bool.false_or, Bool.or_eq_true, beq_iff_eq] at h2
  exact h2

/-- Helper: one-step unfolding of the fueled iterator loop. -/
theorem iterLoop_cont {st st2 : ItState} (h : iterStep st = .cont st2) (fuel : Nat) :
    iterLoop (fuel + 1) st = iterLoop fuel st2 := by
  show (match iterStep st with
    | .yield v r => some (some (v, r))
    | .done => some none
    | .cont x => iterLoop fuel x) = iterLoop fuel st2
  rw [h]

/-- Helper: in the basic state a restricted non-whitespace character is
simply appended to the value. -/
theorem iterStep_plain {c : Char} (hc : plainC5 c = true)
    (hws : (c == ' ' || c == '\t') = false) (rest v : Str) (hw : Bool) :
    iterStep { rest := c :: rest, state := { current := .MxBasic, dquote := false },
               sstack := [], ostack := [], hadWord := hw, simple := true, value := v } =
      .cont { rest := rest, state := { current := .MxBasic, dquote := false },
              sstack := [], ostack := [], hadWord := true, simple := true, value := v ++ [c] } := by
  obtain ⟨hd, hbt, hsq, hdq, hbs, hlp, hrp, hlb, hrb, hlt, hgt, ham, hpi, hse, hti, hqs⟩ :=
    plainC5_facts hc
  rw [Bool.or_eq_false_iff] at hws
  simp only [iterStep]
  rw [if_neg (by decide), if_neg (by simpa using hbs), if_neg (by simpa using hd),
    if_neg (by simpa using hbt), if_neg (by decide), if_neg (by simpa using hsq),
    if_neg (by simpa using hdq), if_neg (by decide), if_neg (by simpa using hrp),
    if_neg (by simpa using hlp)]
  rw [if_neg (by
    push_neg
    exact ⟨by simpa using hlt, by simpa using hgt, by simpa using ham,
      by simpa using hpi, by simpa using hse⟩)]
  rw [if_neg (by
    push_neg
    exact ⟨by simpa using hws.1, by simpa using hws.2⟩)]

/-- Helper: in the basic state a space or tab without a pending word is
skipped. -/
theorem iterStep_ws_skip {c : Char} (hws : (c == ' ' || c == '\t') = true) (rest v : Str) :
    iterStep { rest := c :: rest, state := { current := .MxBasic, dquote := false },
               sstack := [], ostack := [], hadWord := false, simple := true, value := v } =
      .cont { rest := rest, state := { current := .MxBasic, dquote := false },
              sstack := [], ostack := [], hadWord := false, simple := true, value := v } := by
  rw [Bool.or_eq_true] at hws
  rcases hws with h | h
  · have : c = ' ' := by simpa using h
    subst this
    rfl
  · have : c = '\t' := by simpa using h
    subst this
    rfl

/-- Helper: in the basic state a space or tab after a word ends the
argument, leaving the position on the whitespace character. -/
theorem iterStep_ws_break {c : Char} (hws : (c == ' ' || c == '\t') = true) (rest v : Str) :
    iterStep { rest := c :: rest, state := { current := .MxBasic, dquote := false },
               sstack := [], ostack := [], hadWord := true, simple := true, value := v } =
      .yield v (c :: rest) := by
  rw [Bool.or_eq_true] at hws
  rcases hws with h | h
  · have : c = ' ' := by simpa using h
    subst this
    rfl
  · have : c = '\t' := by simpa using h
    subst this
    rfl

/-- Helper: the iterator loop accumulates the rest of the current word and
yields it together with the unconsumed suffix. -/
theorem iterLoop_word : ∀ (rest : Str), (∀ c ∈ rest, plainC5 c = true) →
    ∀ (v : Str) (fuel : Nat), rest.length < fuel →
    iterLoop fuel { rest := rest, state := { current := .MxBasic, dquote := false },
                    sstack := [], ostack := [], hadWord := true, simple := true, value := v } =
      some (some (v ++ rest.takeWhile (fun c => !(c == ' ' || c == '\t')),
                  rest.dropWhile (fun c => !(c == ' ' || c == '\t')))) := by
  intro rest
  induction rest with
  | nil =>
    intro _ v fuel hf
    cases fuel with
    | zero => omega
    | succ n =>
      show (match iterStep { rest := ([] : Str), state := { current := .MxBasic, dquote := false }, sstack := [], ostack := [], hadWord := true, simple := true, value := v } with
        | .yield v r => some (some (v, r))
        | .done => some none
        | .cont x => iterLoop n x) = _
      rw [show iterStep { rest := ([] : Str), state := { current := .MxBasic, dquote := false }, sstack := [], ostack := [], hadWord := true, simple := true, value := v } = ItOut.yield v [] from rfl]
      simp
  | cons c r ih =>
    intro hres v fuel hf
    have hc := hres c (by simp)
    have hrest : ∀ x ∈ r, plainC5 x = true := fun x hx => hres x (List.mem_cons_of_mem _ hx)
    cases fuel with
    | zero => simp at hf
    | succ n =>
      cases hws : (c == ' ' || c == '\t') with
      | true =>
        show (match iterStep { rest := c :: r, state := { current := .MxBasic, dquote := false }, sstack := [], ostack := [], hadWord := true, simple := true, value := v } with
          | .yield v r => some (some (v, r))
          | .done => some none
          | .cont x => iterLoop n x) = _
        rw [iterStep_ws_break hws]
        rw [List.takeWhile_cons, List.dropWhile_cons, hws]
        simp
      | false =>
        rw [iterLoop_cont (iterStep_plain hc hws r v true) n]
        rw [ih hrest (v ++ [c]) n (by simp at hf ⊢; omega)]
        rw [List.takeWhile_cons, List.dropWhile_cons, hws]
        simp

/-- Helper: a full next() call on a restricted suffix skips the leading
whitespace and yields the next word, or reports the end. -/
theorem iterNext_top : ∀ (rest : Str), (∀ c ∈ rest, plainC5 c = true) →
    ∀ (fuel : Nat), rest.length + 1 < fuel →
    iterLoop fuel (initIt rest) =
      match rest.dropWhile (fun c => c == ' ' || c == '\t') with
      | [] => some none
      | c :: r2 =>
        some (some ((c :: r2).takeWhile (fun x => !(x == ' ' || x == '\t')),
                    (c :: r2).dropWhile (fun x => !(x == ' ' || x == '\t')))) := by
  intro rest
  induction rest with
  | nil =>
    intro _ fuel hf
    cases fuel with
    | zero => omega
    | succ n =>
      show (match iterStep (initIt []) with
        | .yield v r => some (some (v, r))
        | .done => some none
        | .cont x => iterLoop n x) = _
      rfl
  | cons c r ih =>
    intro hres fuel hf
    have hc := hres c (by simp)
    have hrest : ∀ x ∈ r, plainC5 x = true := fun x hx => hres x (List.mem_cons_of_mem _ hx)
    cases fuel with
    | zero => simp at hf
    | succ n =>
      cases hws : (c == ' ' || c == '\t') with
      | true =>
        have hstep : iterStep (initIt (c :: r)) = .cont (initIt r) :=
          iterStep_ws_skip hws r []
        rw [iterLoop_cont hstep n, ih hrest n (by simp at hf ⊢; omega)]
        rw [List.dropWhile_cons, hws]
        simp
      | false =>
        have hstep := iterStep_plain hc hws r [] false
        rw [show initIt (c :: r) = { rest := c :: r, state := { current := .MxBasic, dquote := false }, sstack := [], ostack := [], hadWord := false, simple := true, value := [] } from rfl]
        rw [iterLoop_cont hstep n]
        rw [show ([] : Str) ++ [c] = [c] from rfl]
        rw [iterLoop_word r hrest [c] n (by simp at hf ⊢; omega)]
        rw [List.dropWhile_cons, hws]
        simp only [Bool.false_eq_true, if_false]
        rw [List.takeWhile_cons, List.dropWhile_cons, hws]
        simp

/-- Helper: field splitting with a pending word separates into the word and
the split of the remainder. -/
theorem c5FieldsGo_word : ∀ (rest v : Str),
    c5FieldsGo rest v true = (v ++ rest.takeWhile (fun x => !(x == ' ' || x == '\t'))) ::
      c5FieldsGo (rest.dropWhile (fun x => !(x == ' ' || x == '\t'))) [] false := by
  intro rest
  induction rest with
  | nil => intro v; simp [c5FieldsGo]
  | cons c r ih =>
    intro v
    cases hws : (c == ' ' || c == '\t') with
    | true =>
      rw [List.takeWhile_cons, List.dropWhile_cons, hws]
      simp only [Bool.not_true, Bool.false_eq_true, if_false]
      simp only [c5FieldsGo, hws, if_true, List.append_nil]
      simp
    | false =>
      rw [List.takeWhile_cons, List.dropWhile_cons, hws]
      simp only [Bool.not_false, if_true]
      simp only [c5FieldsGo, hws, Bool.false_eq_true, if_false]
      rw [ih (v ++ [c])]
      simp

/-- Helper: leading whitespace does not change the field split. -/
theorem c5FieldsGo_skip : ∀ (rest : Str),
    c5FieldsGo rest [] false =
      c5FieldsGo (rest.dropWhile (fun c => c == ' ' || c == '\t')) [] false := by
  intro rest
  induction rest with
  | nil => rfl
  | cons c r ih =>
    cases hws : (c == ' ' || c == '\t') with
    | true =>
      rw [List.dropWhile_cons, hws]
      simp only [if_true]
      rw [← ih]
      simp only [c5FieldsGo, hws, if_true]
      simp
    | false =>
      rw [List.dropWhile_cons, hws]
      simp

/-- Helper: the full iterator walk over a restricted string produces the
space/tab field split. -/
theorem iterWalk_fields : ∀ (fw : Nat) (rest : Str), (∀ c ∈ rest, plainC5 c = true) →
    rest.length < fw → iterWalk fw rest = some (c5FieldsGo rest [] false) := by
  intro fw
  induction fw with
  | zero => intro rest _ h; omega
  | succ n ih =>
    intro rest hres hlen
    show (match iterNext (rest.length + 2) rest with
      | none => none
      | some none => some []
      | some (some (v, r)) =>
        match iterWalk n r with
        | none => none
        | some vs => some (v :: vs)) = _
    rw [iterNext, iterNext_top rest hres (rest.length + 2) (by omega)]
    rw [c5FieldsGo_skip rest]
    cases hd : rest.dropWhile (fun c => c == ' ' || c == '\t') with
    | nil => rfl
    | cons c r2 =>
      have hmemd : ∀ x ∈ c :: r2, plainC5 x = true := by
        intro x hx
        exact hres x ((List.dropWhile_sublist _).mem (hd ▸ hx))
      have hcd := hmemd c (by simp)
      have hnws : (c == ' ' || c == '\t') = false := by
        have := List.head?_dropWhile_not (fun c => c == ' ' || c == '\t') rest
        rw [hd] at this
        simpa using this
      have hr2 : ∀ x ∈ r2, plainC5 x = true := fun x hx => hmemd x (List.mem_cons_of_mem _ hx)
      have hdrop : (c :: r2).dropWhile (fun x => !(x == ' ' || x == '\t')) =
          r2.dropWhile (fun x => !(x == ' ' || x == '\t')) := by
        rw [List.dropWhile_cons, hnws]
        simp
      have hlen2 : ((c :: r2).dropWhile (fun x => !(x == ' ' || x == '\t'))).length < n := by
        have h1 : (c :: r2).length ≤ rest.length := by
          rw [← hd]
          exact (List.dropWhile_sublist _).length_le
        have h2 : (r2.dropWhile (fun x => !(x == ' ' || x == '\t'))).length ≤ r2.length :=
          (List.dropWhile_sublist _).length_le
        rw [hdrop]
        simp only [List.length_cons] at h1
        omega
      have hmem2 : ∀ x ∈ (c :: r2).dropWhile (fun x => !(x == ' ' || x == '\t')),
          plainC5 x = true :=
        fun x hx => hmemd x ((List.dropWhile_sublist _).mem hx)
      have hIH := ih _ hmem2 hlen2
      show (match iterWalk n ((c :: r2).dropWhile (fun x => !(x == ' ' || x == '\t'))) with
        | none => none
        | some vs =>
          some ((c :: r2).takeWhile (fun x => !(x == ' ' || x == '\t')) :: vs)) =
        some (c5FieldsGo (c :: r2) [] false)
      rw [hIH]
      rw [show c5FieldsGo (c :: r2) [] false = c5FieldsGo r2 [c] true by
        simp only [c5FieldsGo, hnws, Bool.false_eq_true, if_false, List.nil_append]]
      rw [c5FieldsGo_word r2 [c], hdrop]
      rw [List.takeWhile_cons, hnws]
      simp

/-- Helper: on the restricted alphabet the splitter performs exactly the
space/tab field split, from the top state and from inside a word. -/
theorem splitUnix_c5 (home : Str) : ∀ (s : Str), (∀ c ∈ s, plainC5 c = true) →
    (∀ ret, splitUnixGo false none none home s UMode.top [] false ret =
      (SplitError.SplitOk, ret ++ c5FieldsGo s [] false)) ∧
    (∀ v ret, splitUnixGo false none none home s UMode.inWord v true ret =
      (SplitError.SplitOk, ret ++ c5FieldsGo s v true)) := by
  intro s
  induction s with
  | nil =>
    intro _
    constructor
    · intro ret
      simp [splitUnixGo, c5FieldsGo]
    · intro v ret
      simp [splitUnixGo, c5FieldsGo]
  | cons c r ih =>
    intro hres
    have hc := hres c (by simp)
    have hrest : ∀ x ∈ r, plainC5 x = true := fun x hx => hres x (List.mem_cons_of_mem _ hx)
    obtain ⟨ihTop, ihWord⟩ := ih hrest
    obtain ⟨hd, hbt, hsq, hdq, hbs, hlp, hrp, hlb, hrb, hlt, hgt, ham, hpi, hse, hti, hqs⟩ :=
      plainC5_facts hc
    cases hws : (c == ' ' || c == '\t') with
    | true =>
      have hqsp : qIsSpace c = true := by
        rw [Bool.or_eq_true] at hws
        rcases hws with h | h
        · rw [show c = ' ' by simpa using h]; rfl
        · rw [show c = '\t' by simpa using h]; rfl
      constructor
      · intro ret
        simp only [splitUnixGo, hqsp, if_true]
        rw [ihTop ret]
        rw [show c5FieldsGo (c :: r) [] false = c5FieldsGo r [] false by
          simp only [c5FieldsGo, hws, if_true, Bool.false_eq_true, if_false]]
      · intro v ret
        simp only [splitUnixGo, hqsp, if_true]
        rw [ihTop (ret ++ [v])]
        rw [show c5FieldsGo (c :: r) v true = v :: c5FieldsGo r [] false by
          simp only [c5FieldsGo, hws, if_true, eq_self_iff_true]]
        simp
    | false =>
      have hqsp : qIsSpace c = false := by
        cases hq : qIsSpace c with
        | false => rfl
        | true =>
          rcases hqs hq with h | h
          · rw [h] at hws; simp at hws
          · rw [h] at hws; simp at hws
      have hwc : ∀ cret hw ret, wordChar false none c cret hw ret =
          UStep.cont UMode.inWord (cret ++ [c]) true ret := by
        intro cret hw ret
        simp only [wordChar, hsq, hdq, hbs, Bool.false_eq_true, if_false,
          Option.isSome_none, Bool.and_false, Bool.false_and]
      constructor
      · intro ret
        simp only [splitUnixGo, hqsp, hti, Bool.false_eq_true, if_false, hwc,
          List.nil_append]
        rw [ihWord [c] ret]
        rw [show c5FieldsGo (c :: r) [] false = c5FieldsGo r [c] true by
          simp only [c5FieldsGo, hws, Bool.false_eq_true, if_false, List.nil_append]]
      · intro v ret
        simp only [splitUnixGo, hqsp, Bool.false_eq_true, if_false, hwc]
        rw [ihWord (v ++ [c]) ret]
        rw [show c5FieldsGo (c :: r) v true = c5FieldsGo r (v ++ [c]) true by
          simp only [c5FieldsGo, hws, Bool.false_eq_true, if_false]]

/-- C5 (amended): for every command line over the restricted alphabet
(no substitution, quoting, grouping, tilde, redirection or pipeline
characters, and no whitespace other than space and tab), walking
ArgIterator::next() until it returns false yields exactly the word
sequence of splitArgs. -/
theorem c5_iterator_split_agreement (home s : Str) (ws : List Str)
    (hc : ∀ c ∈ s, plainC5 c = true)
    (hsplit : splitArgsUnix home s false none none = (SplitError.SplitOk, ws)) :
    iterWalk (s.length + 1) s = some ws := by
  have hA := (splitUnix_c5 home s hc).1 []
  rw [splitArgsUnix] at hsplit
  rw [hA] at hsplit
  have hws : ws = c5FieldsGo s [] false := by
    have h2 := congrArg Prod.snd hsplit
    simpa using h2.symm
  rw [hws]
  exact iterWalk_fields (s.length + 1) s hc (by omega)

/-- Counterexample to C5 as stated: on the command line a|b all produced
arguments are simple and no substitution, expansion, backtick or grouping
occurs, yet the iterator stops at the top-level pipe after yielding a,
while splitArgs (whose Unix grammar gives the pipe no special meaning)
returns the single word a|b. -/
theorem c5_iterator_split_counterexample :
    splitArgsUnix [] ['a', '|', 'b'] false none none =
      (SplitError.SplitOk, [['a', '|', 'b']]) ∧
    iterWalk 4 ['a', '|', 'b'] = some [['a']] := by
  decide

/-- Witness for c5_iterator_split_agreement on the two-word command line
ab cd. -/
theorem c5_iterator_split_witness :
    iterWalk 6 ['a', 'b', ' ', 'c', 'd'] = some [['a', 'b'], ['c', 'd']] :=
  c5_iterator_split_agreement [] ['a', 'b', ' ', 'c', 'd'] [['a', 'b'], ['c', 'd']]
    (by decide) (by decide)

end Qtc
